import Mathlib

/-!
Shallow embedding of the kesh S3-FIFO cache
(src/fifo.rs, src/fifo_reinserion.rs, src/ghost_fifo.rs, src/lib.rs).

Modelling choices:
* `HashMap<K, Item>` is an association list `List (K × Item)` with the helpers
  `lookupA` / `insertA` / `eraseA` / `modifyA` below; all reachable states keep
  their keys nodup, so the representation is faithful.
* `VecDeque<K>` is a `List K` with the front at the head; `push_back` appends.
* `usize` is `Nat`; the single place where the width of `usize` matters in the
  source is the saturation guard `item.freq + 1 < usize::MAX` in `FIFO::get`,
  which is kept literally using `USIZE_MAX = 2 ^ 64 - 1`.
* The eviction loop `free` (a Rust `while` loop containing `unwrap` calls) is
  modelled with explicit fuel; a result of `none` models a panic (an `unwrap`
  failure) or fuel exhaustion.  The fuel `4 * length + 4` dominates the loop
  measure proved below, so `none` never occurs for well-formed states.
* Methods taking `&mut self` return a pair of the Rust return value and the
  new state.
-/

def USIZE_MAX : Nat := 2 ^ 64 - 1

/-- Association-list lookup, modelling `HashMap::get` / `get_mut` reads. -/
def lookupA {K α : Type} [DecidableEq K] (k : K) : List (K × α) → Option α
  | [] => none
  | p :: rest => if p.1 = k then some p.2 else lookupA k rest

/-- Remove the first binding of `k`, modelling `HashMap::remove`. -/
def eraseA {K α : Type} [DecidableEq K] (k : K) : List (K × α) → List (K × α)
  | [] => []
  | p :: rest => if p.1 = k then rest else p :: eraseA k rest

/-- Replace the binding of `k` (insert-or-replace), modelling `HashMap::insert`. -/
def insertA {K α : Type} [DecidableEq K] (k : K) (a : α) (l : List (K × α)) :
    List (K × α) :=
  (k, a) :: eraseA k l

/-- Update the first binding of `k` in place, modelling writes through
`HashMap::get_mut`. -/
def modifyA {K α : Type} [DecidableEq K] (k : K) (f : α → α) :
    List (K × α) → List (K × α)
  | [] => []
  | p :: rest => if p.1 = k then (p.1, f p.2) :: rest else p :: modifyA k f rest

/-- The keys of an association list. -/
def keysA {K α : Type} (l : List (K × α)) : List K := l.map Prod.fst

/-- Sum of a numeric field over all bindings of an association list. -/
def sumByA {K α : Type} (f : α → Nat) (l : List (K × α)) : Nat :=
  (l.map (fun p => f p.2)).sum

/-- Eviction cost of a deque element for the loop measure of `free`:
the ignore key costs nothing (it is only rotated), any other key costs one
pop in the plain and ghost queues. -/
def igCost {K : Type} [DecidableEq K] (ig : Option K) (k : K) : Nat :=
  if some k = ig then 0 else 1

/-- Total eviction cost of a deque for the plain and ghost queues. -/
def costSumF {K : Type} [DecidableEq K] (ig : Option K) (dq : List K) : Nat :=
  (dq.map (igCost ig)).sum

/-- One when the front of the deque is the ignore key, zero otherwise. -/
def headIndF {K : Type} [DecidableEq K] (ig : Option K) : List K → Nat
  | [] => 0
  | k :: _ => if some k = ig then 1 else 0

/-! ## `FIFO` — src/fifo.rs -/

/-- `Item<V>` of src/fifo.rs. -/
structure FifoItem (V : Type) where
  value : V
  weight : Nat
  freq : Nat
  removed : Bool
deriving DecidableEq

/-- `FIFO<K, V>` of src/fifo.rs. -/
structure FIFO (K V : Type) where
  hash : List (K × FifoItem V)
  vec_deque : List K
  used_capacity : Nat
  capacity : Nat
deriving DecidableEq

/-- `FIFOError` of src/fifo.rs. -/
inductive FIFOError : Type
  | BeyondCapacity
deriving DecidableEq

/-- `Removed<K, V>` of src/fifo.rs. -/
structure Removed (K V : Type) where
  key : K
  value : V
  weight : Nat
  freq : Nat
deriving DecidableEq

/-- `FIFO::new`. -/
def FIFO.new {K V : Type} (capacity : Nat) : FIFO K V :=
  { hash := [], vec_deque := [], used_capacity := 0, capacity := capacity }

/-- `FIFO::get`: on a live entry, bump `freq` with the source's saturation
guard `freq + 1 < usize::MAX` and return the value. -/
def FIFO.get {K V : Type} [DecidableEq K] (c : FIFO K V) (key : K) :
    Option V × FIFO K V :=
  match lookupA key c.hash with
  | some item =>
    if item.removed then (none, c)
    else
      let bump : FifoItem V → FifoItem V := fun it =>
        if it.freq + 1 < USIZE_MAX then { it with freq := it.freq + 1 } else it
      (some item.value, { c with hash := modifyA key bump c.hash })
  | none => (none, c)

/-- `FIFO::free`, one loop iteration at a time (fuel-indexed).
`none` models a panicking `unwrap` or fuel exhaustion. -/
def FIFO.freeAux {K V : Type} [DecidableEq K] (fuel : Nat) (weight : Nat)
    (ignore_key : Option K) (c : FIFO K V) (acc : List (Removed K V)) :
    Option (List (Removed K V) × FIFO K V) :=
  match fuel with
  | 0 => if c.capacity < c.used_capacity + weight then none else some (acc, c)
  | fuel' + 1 =>
    if c.capacity < c.used_capacity + weight then
      match c.vec_deque with
      | [] => none
      | key :: rest =>
        match lookupA key c.hash with
        | none => none
        | some item =>
          if item.removed then
            FIFO.freeAux fuel' weight ignore_key
              { hash := eraseA key c.hash, vec_deque := rest,
                used_capacity := c.used_capacity - item.weight,
                capacity := c.capacity } acc
          else if some key = ignore_key then
            FIFO.freeAux fuel' weight ignore_key
              { hash := c.hash, vec_deque := rest ++ [key],
                used_capacity := c.used_capacity, capacity := c.capacity } acc
          else
            FIFO.freeAux fuel' weight ignore_key
              { hash := eraseA key c.hash, vec_deque := rest,
                used_capacity := c.used_capacity - item.weight,
                capacity := c.capacity }
              (acc ++ [{ key := key, value := item.value,
                         weight := item.weight, freq := item.freq }])
    else some (acc, c)

/-- `FIFO::free`: run the loop with enough fuel, then collapse an empty victim
list to `None` as the source does. -/
def FIFO.free {K V : Type} [DecidableEq K] (c : FIFO K V) (weight : Nat)
    (ignore_key : Option K) : Option (Option (List (Removed K V)) × FIFO K V) :=
  match FIFO.freeAux (4 * c.vec_deque.length + 4) weight ignore_key c [] with
  | none => none
  | some (acc, c') => some ((if acc.isEmpty then none else some acc), c')

/-- `FIFO::update` (private helper of `put`). -/
def FIFO.update {K V : Type} [DecidableEq K] (c : FIFO K V) (key : K) (value : V)
    (weight : Nat) : Option (Option (List (Removed K V)) × FIFO K V) :=
  match lookupA key c.hash with
  | none => none
  | some item =>
    let old_weight := item.weight
    let upd : FifoItem V → FifoItem V := fun it =>
      { it with value := value, weight := weight, removed := false }
    let c1 : FIFO K V := { c with hash := modifyA key upd c.hash }
    if old_weight < weight then
      let needed_space := weight - old_weight
      match c1.free needed_space (some key) with
      | none => none
      | some (removed_keys, c2) =>
        some (removed_keys,
              { c2 with used_capacity := c2.used_capacity + needed_space })
    else
      some (none,
            { c1 with used_capacity := c1.used_capacity - (old_weight - weight) })

/-- `FIFO::insert` (private helper of `put`). -/
def FIFO.insert {K V : Type} [DecidableEq K] (c : FIFO K V) (key : K) (value : V)
    (weight : Nat) : Option (Option (List (Removed K V)) × FIFO K V) :=
  match c.free weight none with
  | none => none
  | some (removed_keys, c1) =>
    some (removed_keys,
          { c1 with used_capacity := c1.used_capacity + weight,
                    hash := insertA key
                      { value := value, weight := weight, freq := 0, removed := false }
                      c1.hash,
                    vec_deque := c1.vec_deque ++ [key] })

/-- `FIFO::put`. -/
def FIFO.put {K V : Type} [DecidableEq K] (c : FIFO K V) (key : K) (value : V)
    (weight : Nat) :
    Option (Except FIFOError (Option (List (Removed K V))) × FIFO K V) :=
  if c.capacity < weight then some (Except.error FIFOError.BeyondCapacity, c)
  else if (lookupA key c.hash).isSome then
    match c.update key value weight with
    | none => none
    | some (r, c') => some (Except.ok r, c')
  else
    match c.insert key value weight with
    | none => none
    | some (r, c') => some (Except.ok r, c')

/-- `FIFO::remove`: tombstone the entry if present. -/
def FIFO.remove {K V : Type} [DecidableEq K] (c : FIFO K V) (key : K) : FIFO K V :=
  { c with hash := modifyA key (fun it => { it with removed := true }) c.hash }

/-- Sum of stored weights over the whole map, tombstoned entries included. -/
def FIFO.sumW {K V : Type} (c : FIFO K V) : Nat :=
  sumByA (fun it => it.weight) c.hash

/-- States reachable from `FIFO::new` by completed public calls
(`put` that did not panic, `get`, `remove`). -/
inductive FIFO.Reachable {K V : Type} [DecidableEq K] : FIFO K V → Prop
  | new (capacity : Nat) : FIFO.Reachable (FIFO.new capacity)
  | put {c c' : FIFO K V} {k : K} {v : V} {w : Nat}
      {r : Except FIFOError (Option (List (Removed K V)))} :
      FIFO.Reachable c → c.put k v w = some (r, c') → FIFO.Reachable c'
  | get {c : FIFO K V} {k : K} : FIFO.Reachable c → FIFO.Reachable (c.get k).2
  | remove {c : FIFO K V} {k : K} : FIFO.Reachable c → FIFO.Reachable (c.remove k)

/-- Precondition of the eviction loop `FIFO::free`: the map keys are nodup and
coincide with the deque entries, and the weight accounting matches one of the
two call sites of `free` in the source (`insert` with no ignore key, or the
growing branch of `update` that protects the updated key). -/
def FIFO.FreeInv {K V : Type} [DecidableEq K] (c : FIFO K V) (ig : Option K)
    (w : Nat) : Prop :=
  (keysA c.hash).Nodup ∧ c.vec_deque.Nodup ∧
  (∀ k, k ∈ c.vec_deque ↔ k ∈ keysA c.hash) ∧
  ((ig = none ∧ FIFO.sumW c = c.used_capacity ∧ w ≤ c.capacity) ∨
   (∃ kg it, ig = some kg ∧ lookupA kg c.hash = some it ∧ it.removed = false ∧
     FIFO.sumW c = c.used_capacity + w ∧ w ≤ it.weight ∧ it.weight ≤ c.capacity))

/-- Loop measure for `FIFO.freeAux`. -/
def FIFO.mu {K V : Type} [DecidableEq K] (c : FIFO K V) (ig : Option K) : Nat :=
  2 * costSumF ig c.vec_deque + headIndF ig c.vec_deque + 1

/-! ## `FIFOReinsertion` — src/fifo_reinserion.rs -/

/-- `Item<V>` of src/fifo_reinserion.rs. -/
structure ReinsItem (V : Type) where
  value : V
  weight : Nat
  hit : Bool
  removed : Bool
deriving DecidableEq

/-- `FIFOReinsertion<K, V>` of src/fifo_reinserion.rs. -/
structure FIFOReinsertion (K V : Type) where
  hash : List (K × ReinsItem V)
  vec_deque : List K
  used_capacity : Nat
  capacity : Nat
deriving DecidableEq

/-- `FIFOReinsertionError` of src/fifo_reinserion.rs. -/
inductive FIFOReinsertionError : Type
  | BeyondCapacity
deriving DecidableEq

/-- `FIFOReinsertion::new`. -/
def FIFOReinsertion.new {K V : Type} (capacity : Nat) : FIFOReinsertion K V :=
  { hash := [], vec_deque := [], used_capacity := 0, capacity := capacity }

/-- `FIFOReinsertion::get`: on a live entry, set the hit bit and return the
value. -/
def FIFOReinsertion.get {K V : Type} [DecidableEq K] (c : FIFOReinsertion K V)
    (key : K) : Option V × FIFOReinsertion K V :=
  match lookupA key c.hash with
  | some item =>
    if item.removed then (none, c)
    else
      let mark : ReinsItem V → ReinsItem V := fun it => { it with hit := true }
      (some item.value, { c with hash := modifyA key mark c.hash })
  | none => (none, c)

/-- `FIFOReinsertion::free`, one loop iteration at a time (fuel-indexed);
a hit entry at the front is cleared and rotated to the tail instead of being
evicted.  `none` models a panicking `unwrap` or fuel exhaustion. -/
def FIFOReinsertion.freeAux {K V : Type} [DecidableEq K] (fuel : Nat)
    (weight : Nat) (ignore_key : Option K) (c : FIFOReinsertion K V)
    (acc : List K) : Option (List K × FIFOReinsertion K V) :=
  match fuel with
  | 0 => if c.capacity < c.used_capacity + weight then none else some (acc, c)
  | fuel' + 1 =>
    if c.capacity < c.used_capacity + weight then
      match c.vec_deque with
      | [] => none
      | key :: rest =>
        match lookupA key c.hash with
        | none => none
        | some item =>
          if item.removed then
            FIFOReinsertion.freeAux fuel' weight ignore_key
              { hash := eraseA key c.hash, vec_deque := rest,
                used_capacity := c.used_capacity - item.weight,
                capacity := c.capacity } acc
          else if some key = ignore_key then
            FIFOReinsertion.freeAux fuel' weight ignore_key
              { hash := c.hash, vec_deque := rest ++ [key],
                used_capacity := c.used_capacity, capacity := c.capacity } acc
          else if item.hit then
            FIFOReinsertion.freeAux fuel' weight ignore_key
              { hash := modifyA key (fun it => { it with hit := false }) c.hash,
                vec_deque := rest ++ [key],
                used_capacity := c.used_capacity, capacity := c.capacity } acc
          else
            FIFOReinsertion.freeAux fuel' weight ignore_key
              { hash := eraseA key c.hash, vec_deque := rest,
                used_capacity := c.used_capacity - item.weight,
                capacity := c.capacity } (acc ++ [key])
    else some (acc, c)

/-- `FIFOReinsertion::free`. -/
def FIFOReinsertion.free {K V : Type} [DecidableEq K] (c : FIFOReinsertion K V)
    (weight : Nat) (ignore_key : Option K) :
    Option (Option (List K) × FIFOReinsertion K V) :=
  match FIFOReinsertion.freeAux (4 * c.vec_deque.length + 4) weight ignore_key c [] with
  | none => none
  | some (acc, c') => some ((if acc.isEmpty then none else some acc), c')

/-- `FIFOReinsertion::update` (private helper of `put`). -/
def FIFOReinsertion.update {K V : Type} [DecidableEq K] (c : FIFOReinsertion K V)
    (key : K) (value : V) (weight : Nat) :
    Option (Option (List K) × FIFOReinsertion K V) :=
  match lookupA key c.hash with
  | none => none
  | some item =>
    let old_weight := item.weight
    let upd : ReinsItem V → ReinsItem V := fun it =>
      { it with value := value, weight := weight, removed := false }
    let c1 : FIFOReinsertion K V := { c with hash := modifyA key upd c.hash }
    if old_weight < weight then
      let needed_space := weight - old_weight
      match c1.free needed_space (some key) with
      | none => none
      | some (removed_keys, c2) =>
        some (removed_keys,
              { c2 with used_capacity := c2.used_capacity + needed_space })
    else
      some (none,
            { c1 with used_capacity := c1.used_capacity - (old_weight - weight) })

/-- `FIFOReinsertion::insert` (private helper of `put`): a fresh entry starts
with `hit = false`. -/
def FIFOReinsertion.insert {K V : Type} [DecidableEq K] (c : FIFOReinsertion K V)
    (key : K) (value : V) (weight : Nat) :
    Option (Option (List K) × FIFOReinsertion K V) :=
  match c.free weight none with
  | none => none
  | some (removed_keys, c1) =>
    some (removed_keys,
          { c1 with used_capacity := c1.used_capacity + weight,
                    hash := insertA key
                      { value := value, weight := weight, hit := false, removed := false }
                      c1.hash,
                    vec_deque := c1.vec_deque ++ [key] })

/-- `FIFOReinsertion::put`. -/
def FIFOReinsertion.put {K V : Type} [DecidableEq K] (c : FIFOReinsertion K V)
    (key : K) (value : V) (weight : Nat) :
    Option (Except FIFOReinsertionError (Option (List K)) × FIFOReinsertion K V) :=
  if c.capacity < weight then
    some (Except.error FIFOReinsertionError.BeyondCapacity, c)
  else if (lookupA key c.hash).isSome then
    match c.update key value weight with
    | none => none
    | some (r, c') => some (Except.ok r, c')
  else
    match c.insert key value weight with
    | none => none
    | some (r, c') => some (Except.ok r, c')

/-- Modelled from the spec: the facade (src/lib.rs, line 61) calls
`FIFOReinsertion::put_with_freq`, whose definition is not among the provided
source files; only this caller is.  Spec, section 4.2: "Behaves like `put` but
initializes the new entry's `hit` to `(f > 0)` instead of `false`."  The
insertion helper used by it, with the hit bit precomputed from `f`. -/
def FIFOReinsertion.insert_with_freq {K V : Type} [DecidableEq K]
    (c : FIFOReinsertion K V) (key : K) (value : V) (weight : Nat) (freq : Nat) :
    Option (Option (List K) × FIFOReinsertion K V) :=
  match c.free weight none with
  | none => none
  | some (removed_keys, c1) =>
    some (removed_keys,
          { c1 with used_capacity := c1.used_capacity + weight,
                    hash := insertA key
                      { value := value, weight := weight,
                        hit := decide (0 < freq), removed := false }
                      c1.hash,
                    vec_deque := c1.vec_deque ++ [key] })

/-- Modelled from the spec: `FIFOReinsertion::put_with_freq` (spec section 4.2),
identical to `put` except that a freshly inserted entry's `hit` flag starts as
`(f > 0)` instead of `false`. -/
def FIFOReinsertion.put_with_freq {K V : Type} [DecidableEq K]
    (c : FIFOReinsertion K V) (key : K) (value : V) (weight : Nat) (freq : Nat) :
    Option (Except FIFOReinsertionError (Option (List K)) × FIFOReinsertion K V) :=
  if c.capacity < weight then
    some (Except.error FIFOReinsertionError.BeyondCapacity, c)
  else if (lookupA key c.hash).isSome then
    match c.update key value weight with
    | none => none
    | some (r, c') => some (Except.ok r, c')
  else
    match c.insert_with_freq key value weight freq with
    | none => none
    | some (r, c') => some (Except.ok r, c')

/-- `FIFOReinsertion::remove`: tombstone the entry if present. -/
def FIFOReinsertion.remove {K V : Type} [DecidableEq K] (c : FIFOReinsertion K V)
    (key : K) : FIFOReinsertion K V :=
  { c with hash := modifyA key (fun it => { it with removed := true }) c.hash }

/-- Sum of stored weights over the whole map, tombstoned entries included. -/
def FIFOReinsertion.sumW {K V : Type} (c : FIFOReinsertion K V) : Nat :=
  sumByA (fun it => it.weight) c.hash

/-- States reachable from `FIFOReinsertion::new` by completed public calls. -/
inductive FIFOReinsertion.Reachable {K V : Type} [DecidableEq K] :
    FIFOReinsertion K V → Prop
  | new (capacity : Nat) : FIFOReinsertion.Reachable (FIFOReinsertion.new capacity)
  | put {c c' : FIFOReinsertion K V} {k : K} {v : V} {w : Nat}
      {r : Except FIFOReinsertionError (Option (List K))} :
      FIFOReinsertion.Reachable c → c.put k v w = some (r, c') →
      FIFOReinsertion.Reachable c'
  | get {c : FIFOReinsertion K V} {k : K} :
      FIFOReinsertion.Reachable c → FIFOReinsertion.Reachable (c.get k).2
  | remove {c : FIFOReinsertion K V} {k : K} :
      FIFOReinsertion.Reachable c → FIFOReinsertion.Reachable (c.remove k)

/-- Eviction cost of a deque element of the reinsertion queue: the ignore key
costs nothing, a hit entry costs two pops (one rotation plus the final pop),
anything else costs one. -/
def FIFOReinsertion.entryCost {K V : Type} [DecidableEq K]
    (c : FIFOReinsertion K V) (ig : Option K) (k : K) : Nat :=
  if some k = ig then 0
  else
    match lookupA k c.hash with
    | some it => if it.hit then 2 else 1
    | none => 1

/-- Total eviction cost of the reinsertion queue's deque. -/
def FIFOReinsertion.costSum {K V : Type} [DecidableEq K]
    (c : FIFOReinsertion K V) (ig : Option K) : Nat :=
  (c.vec_deque.map (c.entryCost ig)).sum

/-- Loop measure for `FIFOReinsertion.freeAux`. -/
def FIFOReinsertion.mu {K V : Type} [DecidableEq K] (c : FIFOReinsertion K V)
    (ig : Option K) : Nat :=
  2 * c.costSum ig + headIndF ig c.vec_deque + 1

/-- Precondition of the eviction loop `FIFOReinsertion::free`, as for
`FIFO.FreeInv`. -/
def FIFOReinsertion.FreeInv {K V : Type} [DecidableEq K] (c : FIFOReinsertion K V)
    (ig : Option K) (w : Nat) : Prop :=
  (keysA c.hash).Nodup ∧ c.vec_deque.Nodup ∧
  (∀ k, k ∈ c.vec_deque ↔ k ∈ keysA c.hash) ∧
  ((ig = none ∧ FIFOReinsertion.sumW c = c.used_capacity ∧ w ≤ c.capacity) ∨
   (∃ kg it, ig = some kg ∧ lookupA kg c.hash = some it ∧ it.removed = false ∧
     FIFOReinsertion.sumW c = c.used_capacity + w ∧ w ≤ it.weight ∧
     it.weight ≤ c.capacity))

/-! ## `GhostFIFO` — src/ghost_fifo.rs -/

/-- `Item` of src/ghost_fifo.rs: weight and tombstone only, no value. -/
structure GhostItem : Type where
  weight : Nat
  removed : Bool
deriving DecidableEq

/-- `GhostFIFO<K>` of src/ghost_fifo.rs. -/
structure GhostFIFO (K : Type) where
  hash : List (K × GhostItem)
  vec_deque : List K
  used_capacity : Nat
  capacity : Nat
deriving DecidableEq

/-- `GhostFIFOError` of src/ghost_fifo.rs. -/
inductive GhostFIFOError : Type
  | BeyondCapacity
deriving DecidableEq

/-- `GhostFIFO::new`. -/
def GhostFIFO.new {K : Type} (capacity : Nat) : GhostFIFO K :=
  { hash := [], vec_deque := [], used_capacity := 0, capacity := capacity }

/-- `GhostFIFO::get`: true iff the key is present and not tombstoned.  The
source body only reads `self`, so the returned state is the input state. -/
def GhostFIFO.get {K : Type} [DecidableEq K] (c : GhostFIFO K) (key : K) :
    Bool × GhostFIFO K :=
  match lookupA key c.hash with
  | some item => (if item.removed then false else true, c)
  | none => (false, c)

/-- `GhostFIFO::free`, one loop iteration at a time (fuel-indexed).
`none` models a panicking `unwrap` or fuel exhaustion. -/
def GhostFIFO.freeAux {K : Type} [DecidableEq K] (fuel : Nat) (weight : Nat)
    (ignore_key : Option K) (c : GhostFIFO K) (acc : List K) :
    Option (List K × GhostFIFO K) :=
  match fuel with
  | 0 => if c.capacity < c.used_capacity + weight then none else some (acc, c)
  | fuel' + 1 =>
    if c.capacity < c.used_capacity + weight then
      match c.vec_deque with
      | [] => none
      | key :: rest =>
        match lookupA key c.hash with
        | none => none
        | some item =>
          if item.removed then
            GhostFIFO.freeAux fuel' weight ignore_key
              { hash := eraseA key c.hash, vec_deque := rest,
                used_capacity := c.used_capacity - item.weight,
                capacity := c.capacity } acc
          else if some key = ignore_key then
            GhostFIFO.freeAux fuel' weight ignore_key
              { hash := c.hash, vec_deque := rest ++ [key],
                used_capacity := c.used_capacity, capacity := c.capacity } acc
          else
            GhostFIFO.freeAux fuel' weight ignore_key
              { hash := eraseA key c.hash, vec_deque := rest,
                used_capacity := c.used_capacity - item.weight,
                capacity := c.capacity } (acc ++ [key])
    else some (acc, c)

/-- `GhostFIFO::free`. -/
def GhostFIFO.free {K : Type} [DecidableEq K] (c : GhostFIFO K) (weight : Nat)
    (ignore_key : Option K) : Option (Option (List K) × GhostFIFO K) :=
  match GhostFIFO.freeAux (4 * c.vec_deque.length + 4) weight ignore_key c [] with
  | none => none
  | some (acc, c') => some ((if acc.isEmpty then none else some acc), c')

/-- `GhostFIFO::update` (private helper of `put`). -/
def GhostFIFO.update {K : Type} [DecidableEq K] (c : GhostFIFO K) (key : K)
    (weight : Nat) : Option (Option (List K) × GhostFIFO K) :=
  match lookupA key c.hash with
  | none => none
  | some item =>
    let old_weight := item.weight
    let upd : GhostItem → GhostItem := fun it =>
      { it with weight := weight, removed := false }
    let c1 : GhostFIFO K := { c with hash := modifyA key upd c.hash }
    if old_weight < weight then
      let needed_space := weight - old_weight
      match c1.free needed_space (some key) with
      | none => none
      | some (removed_keys, c2) =>
        some (removed_keys,
              { c2 with used_capacity := c2.used_capacity + needed_space })
    else
      some (none,
            { c1 with used_capacity := c1.used_capacity - (old_weight - weight) })

/-- `GhostFIFO::insert` (private helper of `put`). -/
def GhostFIFO.insert {K : Type} [DecidableEq K] (c : GhostFIFO K) (key : K)
    (weight : Nat) : Option (Option (List K) × GhostFIFO K) :=
  match c.free weight none with
  | none => none
  | some (removed_keys, c1) =>
    some (removed_keys,
          { c1 with used_capacity := c1.used_capacity + weight,
                    hash := insertA key { weight := weight, removed := false } c1.hash,
                    vec_deque := c1.vec_deque ++ [key] })

/-- `GhostFIFO::put`. -/
def GhostFIFO.put {K : Type} [DecidableEq K] (c : GhostFIFO K) (key : K)
    (weight : Nat) :
    Option (Except GhostFIFOError (Option (List K)) × GhostFIFO K) :=
  if c.capacity < weight then
    some (Except.error GhostFIFOError.BeyondCapacity, c)
  else if (lookupA key c.hash).isSome then
    match c.update key weight with
    | none => none
    | some (r, c') => some (Except.ok r, c')
  else
    match c.insert key weight with
    | none => none
    | some (r, c') => some (Except.ok r, c')

/-- `GhostFIFO::remove`: tombstone the entry if present. -/
def GhostFIFO.remove {K : Type} [DecidableEq K] (c : GhostFIFO K) (key : K) :
    GhostFIFO K :=
  { c with hash := modifyA key (fun it => { it with removed := true }) c.hash }

/-- Sum of stored weights over the whole map, tombstoned entries included. -/
def GhostFIFO.sumW {K : Type} (c : GhostFIFO K) : Nat :=
  sumByA (fun it => it.weight) c.hash

/-- States reachable from `GhostFIFO::new` by completed public calls. -/
inductive GhostFIFO.Reachable {K : Type} [DecidableEq K] : GhostFIFO K → Prop
  | new (capacity : Nat) : GhostFIFO.Reachable (GhostFIFO.new capacity)
  | put {c c' : GhostFIFO K} {k : K} {w : Nat}
      {r : Except GhostFIFOError (Option (List K))} :
      GhostFIFO.Reachable c → c.put k w = some (r, c') → GhostFIFO.Reachable c'
  | get {c : GhostFIFO K} {k : K} :
      GhostFIFO.Reachable c → GhostFIFO.Reachable (c.get k).2
  | remove {c : GhostFIFO K} {k : K} :
      GhostFIFO.Reachable c → GhostFIFO.Reachable (c.remove k)

/-- Precondition of the eviction loop `GhostFIFO::free`, as for `FIFO.FreeInv`. -/
def GhostFIFO.FreeInv {K : Type} [DecidableEq K] (c : GhostFIFO K) (ig : Option K)
    (w : Nat) : Prop :=
  (keysA c.hash).Nodup ∧ c.vec_deque.Nodup ∧
  (∀ k, k ∈ c.vec_deque ↔ k ∈ keysA c.hash) ∧
  ((ig = none ∧ GhostFIFO.sumW c = c.used_capacity ∧ w ≤ c.capacity) ∨
   (∃ kg it, ig = some kg ∧ lookupA kg c.hash = some it ∧ it.removed = false ∧
     GhostFIFO.sumW c = c.used_capacity + w ∧ w ≤ it.weight ∧
     it.weight ≤ c.capacity))

/-- Loop measure for `GhostFIFO.freeAux`. -/
def GhostFIFO.mu {K : Type} [DecidableEq K] (c : GhostFIFO K) (ig : Option K) :
    Nat :=
  2 * costSumF ig c.vec_deque + headIndF ig c.vec_deque + 1

/-! ## `S3FIFO` — src/lib.rs -/

/-- `S3FIFO<K, V>` of src/lib.rs. -/
structure S3FIFO (K V : Type) where
  main : FIFOReinsertion K V
  small : FIFO K V
  ghost : GhostFIFO K
deriving DecidableEq

/-- `S3FIFOError` of src/lib.rs. -/
inductive S3FIFOError : Type
  | BeyondCapacity
deriving DecidableEq

/-- `S3FIFO::new`: the 90/10 main/small split, ghost sized like main. -/
def S3FIFO.new {K V : Type} (capacity : Nat) : S3FIFO K V :=
  let main_capacity := capacity * 90 / 100
  let small_capacity := capacity * 10 / 100
  { main := FIFOReinsertion.new main_capacity,
    small := FIFO.new small_capacity,
    ghost := GhostFIFO.new main_capacity }

/-- The victim-processing loop in `S3FIFO::put` (src/lib.rs, lines 58-73):
a small-queue victim with positive `freq` is promoted into `main` via
`put_with_freq` with `freq - 1` (its result is kept only on `Ok(Some(_))`);
any other victim is recorded in `ghost` (result discarded) and reported. -/
def S3FIFO.processVictims {K V : Type} [DecidableEq K] (c : S3FIFO K V) :
    List (Removed K V) → List K → Option (List K × S3FIFO K V)
  | [], acc => some (acc, c)
  | item :: rest, acc =>
    if 0 < item.freq then
      match c.main.put_with_freq item.key item.value item.weight (item.freq - 1) with
      | none => none
      | some (Except.ok (some removed_from_main), main') =>
        S3FIFO.processVictims { c with main := main' } rest (acc ++ removed_from_main)
      | some (Except.ok none, main') =>
        S3FIFO.processVictims { c with main := main' } rest acc
      | some (Except.error _, main') =>
        S3FIFO.processVictims { c with main := main' } rest acc
    else
      match c.ghost.put item.key item.weight with
      | none => none
      | some (_, ghost') =>
        S3FIFO.processVictims { c with ghost := ghost' } rest (acc ++ [item.key])

/-- `S3FIFO::put`. -/
def S3FIFO.put {K V : Type} [DecidableEq K] (c : S3FIFO K V) (key : K) (value : V)
    (weight : Nat) :
    Option (Except S3FIFOError (Option (List K)) × S3FIFO K V) :=
  if (c.ghost.get key).1 then
    let c1 : S3FIFO K V := { c with ghost := c.ghost.remove key }
    match c1.main.put key value weight with
    | none => none
    | some (Except.error _, main') =>
      some (Except.error S3FIFOError.BeyondCapacity, { c1 with main := main' })
    | some (Except.ok removed, main') =>
      some (Except.ok removed, { c1 with main := main' })
  else
    match c.small.put key value weight with
    | none => none
    | some (Except.error _, small') =>
      some (Except.error S3FIFOError.BeyondCapacity, { c with small := small' })
    | some (Except.ok (some removed), small') =>
      match S3FIFO.processVictims { c with small := small' } removed [] with
      | none => none
      | some (removed_keys, c2) => some (Except.ok (some removed_keys), c2)
    | some (Except.ok none, small') => some (Except.ok none, { c with small := small' })

/-- `S3FIFO::get`: look in `small` first, then `main`; each hit performs its
queue's own promotion side effect. -/
def S3FIFO.get {K V : Type} [DecidableEq K] (c : S3FIFO K V) (key : K) :
    Option V × S3FIFO K V :=
  match c.small.get key with
  | (some v, small') => (some v, { c with small := small' })
  | (none, small') =>
    match c.main.get key with
    | (r, main') => (r, { c with small := small', main := main' })

/-- `S3FIFO::remove`: tombstone the key in all three queues. -/
def S3FIFO.remove {K V : Type} [DecidableEq K] (c : S3FIFO K V) (key : K) :
    S3FIFO K V :=
  { c with main := c.main.remove key, small := c.small.remove key,
           ghost := c.ghost.remove key }

/-! ## Concrete states and runs used by the scenario claims -/

/-- Run one facade `put`, keeping the state only when it returns `Ok`. -/
def stepOkS3 (c : S3FIFO Nat Nat) (p : Nat × Nat × Nat) : Option (S3FIFO Nat Nat) :=
  match c.put p.1 p.2.1 p.2.2 with
  | some (Except.ok _, c') => some c'
  | _ => none

/-- Fold `stepOkS3` over a list of `put` requests. -/
def runPutsS3 : Option (S3FIFO Nat Nat) → List (Nat × Nat × Nat) →
    Option (S3FIFO Nat Nat)
  | none, _ => none
  | some c, [] => some c
  | some c, p :: rest => runPutsS3 (stepOkS3 c p) rest

/-- Run one `FIFO::put`, keeping the state only when it returns `Ok`. -/
def stepOkF (c : FIFO Nat Nat) (p : Nat × Nat × Nat) : Option (FIFO Nat Nat) :=
  match c.put p.1 p.2.1 p.2.2 with
  | some (Except.ok _, c') => some c'
  | _ => none

/-- Fold `stepOkF` over a list of `put` requests. -/
def runPutsF : Option (FIFO Nat Nat) → List (Nat × Nat × Nat) →
    Option (FIFO Nat Nat)
  | none, _ => none
  | some c, [] => some c
  | some c, p :: rest => runPutsF (stepOkF c p) rest

/-- Scenario of claim C5: the facade state after `put(i, i, 1)` for
`i = 1, ..., 10` on a fresh cache of capacity 10. -/
def c5_state : Option (S3FIFO Nat Nat) :=
  runPutsS3 (some (S3FIFO.new 10))
    [(1, 1, 1), (2, 2, 1), (3, 3, 1), (4, 4, 1), (5, 5, 1),
     (6, 6, 1), (7, 7, 1), (8, 8, 1), (9, 9, 1), (10, 10, 1)]

/-- Scenario of claim C5, observables: the result of the eleventh put
`put(11, 11, 1)` together with `get(10)` and then `get(11)` on the state it
leaves behind. -/
def c5_obs : Option (Option (List Nat) × Option Nat × Option Nat) :=
  match c5_state with
  | none => none
  | some c =>
    match c.put 11 11 1 with
    | some (Except.ok r, c') =>
      some (r, (c'.get 10).1, (((c'.get 10).2).get 11).1)
    | _ => none

/-- Scenario of claim C7: state after `put(1,1,3); put(2,2,2); put(3,3,4);
put(4,4,1)` on a fresh `FIFO` of capacity 10. -/
def c7_state : Option (FIFO Nat Nat) :=
  runPutsF (some (FIFO.new 10)) [(1, 1, 3), (2, 2, 2), (3, 3, 4), (4, 4, 1)]

/-- Scenario of claim C7, observables: the victims reported by the fifth put
`put(5,5,5)` and the `used_capacity` afterwards. -/
def c7_obs : Option (Option (List (Removed Nat Nat)) × Nat) :=
  match c7_state with
  | none => none
  | some c =>
    match c.put 5 5 5 with
    | some (Except.ok r, c') => some (r, c'.used_capacity)
    | _ => none

/-- Scenario of the claim C8 amendment: `put(1,1,1); remove(1); put(2,2,2)` on
a `FIFO` of capacity 2 (the sub-queue; as shown by `c8_counterexample` the
facade of capacity 2 rejects the very first put).  Observables: `get(1)`,
then `get(2)`, and the length of the internal ordered sequence. -/
def c8_obs : Option (Option Nat × Option Nat × Nat) :=
  match (FIFO.new 2 : FIFO Nat Nat).put 1 1 1 with
  | some (Except.ok _, c1) =>
    let c2 := c1.remove 1
    match c2.put 2 2 2 with
    | some (Except.ok _, c3) =>
      some ((c3.get 1).1, (((c3.get 1).2).get 2).1, c3.vec_deque.length)
    | _ => none
  | _ => none

/-- Counterexample state for claim C1: a facade whose ghost queue remembers
key 1 (live, weight 1), with main capacity 9 and small capacity 1 — the split
of `S3FIFO::new 10` after the facade has moved key 1 into ghost. -/
def c1_cex : S3FIFO Nat Nat :=
  { main := FIFOReinsertion.new 9,
    small := FIFO.new 1,
    ghost := { hash := [(1, { weight := 1, removed := false })],
               vec_deque := [1], used_capacity := 1, capacity := 9 } }

/-- The state actually produced by the failing `put` of `c1_counterexample`:
the ghost entry of key 1 is tombstoned even though the call errors. -/
def c1_cex_after : S3FIFO Nat Nat :=
  { c1_cex with ghost := c1_cex.ghost.remove 1 }

/-- Counterexample state for claim C6: a `FIFO` whose single live entry has
`freq = usize::MAX - 1`, one step below the representation maximum. -/
def c6_cex : FIFO Nat Nat :=
  { hash := [(1, { value := 5, weight := 1, freq := USIZE_MAX - 1, removed := false })],
    vec_deque := [1], used_capacity := 1, capacity := 10 }

/-- Counterexample state for claim C10: the three invariants listed by the
claim hold (every deque key is in the map — vacuously, `used` is the sum of
the stored weights, every stored weight is at most the capacity), yet the map
holds a key that is not in the deque, so the eviction loop pops an empty
deque: `free` hits its partial front-pop. -/
def c10_cex : FIFO Nat Nat :=
  { hash := [(0, { value := 0, weight := 5, freq := 0, removed := false })],
    vec_deque := [], used_capacity := 5, capacity := 5 }

/-- Witness state for claim C2's facade conjunct: small queue of capacity 1
holding key 1 with `freq = 2`; main and ghost empty with capacity 9. -/
def c2_wit : S3FIFO Nat Nat :=
  { main := FIFOReinsertion.new 9,
    small := { hash := [(1, { value := 1, weight := 1, freq := 2, removed := false })],
               vec_deque := [1], used_capacity := 1, capacity := 1 },
    ghost := GhostFIFO.new 9 }

/-- Full structural invariant of a `FIFO` queue, maintained by every public
operation: nodup keys equal to the deque entries, and `used_capacity` equal to
the sum of stored weights (tombstoned entries included) and at most the
capacity. -/
def FIFO.Inv {K V : Type} [DecidableEq K] (c : FIFO K V) : Prop :=
  (keysA c.hash).Nodup ∧ c.vec_deque.Nodup ∧
  (∀ k, k ∈ c.vec_deque ↔ k ∈ keysA c.hash) ∧
  FIFO.sumW c = c.used_capacity ∧ c.used_capacity ≤ c.capacity

/-- Full structural invariant of a `FIFOReinsertion` queue. -/
def FIFOReinsertion.Inv {K V : Type} [DecidableEq K] (c : FIFOReinsertion K V) :
    Prop :=
  (keysA c.hash).Nodup ∧ c.vec_deque.Nodup ∧
  (∀ k, k ∈ c.vec_deque ↔ k ∈ keysA c.hash) ∧
  FIFOReinsertion.sumW c = c.used_capacity ∧ c.used_capacity ≤ c.capacity

/-- Full structural invariant of a `GhostFIFO` queue. -/
def GhostFIFO.Inv {K : Type} [DecidableEq K] (c : GhostFIFO K) : Prop :=
  (keysA c.hash).Nodup ∧ c.vec_deque.Nodup ∧
  (∀ k, k ∈ c.vec_deque ↔ k ∈ keysA c.hash) ∧
  GhostFIFO.sumW c = c.used_capacity ∧ c.used_capacity ≤ c.capacity

/-! ## Lemmas about the association-list helpers -/

theorem mem_keysA_iff_lookupA {K α : Type} [DecidableEq K] (k : K)
    (l : List (K × α)) : k ∈ keysA l ↔ (lookupA k l).isSome = true := by
  induction l with
  | nil => simp [keysA, lookupA]
  | cons p rest ih =>
    by_cases h : p.1 = k
    · simp [keysA, lookupA, h]
    · simp only [keysA, List.map_cons, List.mem_cons, lookupA, if_neg h]
      simp only [keysA] at ih
      rw [ih]
      constructor
      · rintro (h' | h')
        · exact absurd h'.symm h
        · exact h'
      · exact Or.inr

theorem lookupA_eq_none_iff {K α : Type} [DecidableEq K] (k : K)
    (l : List (K × α)) : lookupA k l = none ↔ k ∉ keysA l := by
  rw [mem_keysA_iff_lookupA]
  cases lookupA k l <;> simp

theorem mem_keysA_of_lookupA {K α : Type} [DecidableEq K] {k : K}
    {l : List (K × α)} {a : α} (h : lookupA k l = some a) : k ∈ keysA l := by
  rw [mem_keysA_iff_lookupA, h]
  rfl

theorem keysA_eraseA {K α : Type} [DecidableEq K] (k : K) (l : List (K × α)) :
    keysA (eraseA k l) = (keysA l).erase k := by
  induction l with
  | nil => simp [keysA, eraseA]
  | cons p rest ih =>
    simp only [keysA] at ih
    by_cases h : p.1 = k
    · simp only [eraseA, if_pos h, keysA, List.map_cons, List.erase_cons]
      simp [h]
    · simp only [eraseA, if_neg h, keysA, List.map_cons, List.erase_cons, ih]
      simp [h]

theorem lookupA_eraseA_ne {K α : Type} [DecidableEq K] {k k' : K}
    (l : List (K × α)) (h : k' ≠ k) :
    lookupA k' (eraseA k l) = lookupA k' l := by
  induction l with
  | nil => simp [eraseA]
  | cons p rest ih =>
    by_cases hp : p.1 = k
    · have hne : ¬p.1 = k' := by rw [hp]; exact fun e => h e.symm
      simp only [eraseA, if_pos hp, lookupA, if_neg hne]
    · simp only [eraseA, if_neg hp, lookupA]
      by_cases hp' : p.1 = k'
      · simp only [if_pos hp']
      · simp only [if_neg hp', ih]

theorem lookupA_eraseA_self {K α : Type} [DecidableEq K] {k : K}
    {l : List (K × α)} (h : (keysA l).Nodup) : lookupA k (eraseA k l) = none := by
  rw [lookupA_eq_none_iff, keysA_eraseA]
  exact h.not_mem_erase

theorem eraseA_eq_of_lookupA_none {K α : Type} [DecidableEq K] {k : K}
    {l : List (K × α)} (h : lookupA k l = none) : eraseA k l = l := by
  induction l with
  | nil => rfl
  | cons p rest ih =>
    by_cases hp : p.1 = k
    · simp [lookupA, hp] at h
    · simp only [lookupA, if_neg hp] at h
      simp [eraseA, hp, ih h]

theorem keysA_modifyA {K α : Type} [DecidableEq K] (k : K) (f : α → α)
    (l : List (K × α)) : keysA (modifyA k f l) = keysA l := by
  induction l with
  | nil => rfl
  | cons p rest ih =>
    simp only [keysA] at ih
    by_cases hp : p.1 = k
    · simp only [modifyA, if_pos hp, keysA, List.map_cons]
    · simp only [modifyA, if_neg hp, keysA, List.map_cons, ih]

theorem lookupA_modifyA_self {K α : Type} [DecidableEq K] (k : K) (f : α → α)
    (l : List (K × α)) :
    lookupA k (modifyA k f l) = (lookupA k l).map f := by
  induction l with
  | nil => rfl
  | cons p rest ih =>
    by_cases hp : p.1 = k
    · simp only [modifyA, if_pos hp, lookupA, if_pos hp, Option.map_some']
    · simp only [modifyA, if_neg hp, lookupA, if_neg hp, ih]

theorem lookupA_modifyA_ne {K α : Type} [DecidableEq K] {k k' : K} (f : α → α)
    (l : List (K × α)) (h : k' ≠ k) :
    lookupA k' (modifyA k f l) = lookupA k' l := by
  induction l with
  | nil => rfl
  | cons p rest ih =>
    by_cases hp : p.1 = k
    · have hne : ¬p.1 = k' := by rw [hp]; exact fun e => h e.symm
      simp only [modifyA, if_pos hp, lookupA, if_neg hne]
    · simp only [modifyA, if_neg hp, lookupA]
      by_cases hp' : p.1 = k'
      · simp only [if_pos hp']
      · simp only [if_neg hp', ih]

theorem modifyA_eq_of_lookupA_none {K α : Type} [DecidableEq K] {k : K}
    (f : α → α) {l : List (K × α)} (h : lookupA k l = none) :
    modifyA k f l = l := by
  induction l with
  | nil => rfl
  | cons p rest ih =>
    by_cases hp : p.1 = k
    · simp [lookupA, hp] at h
    · simp only [lookupA, if_neg hp] at h
      simp [modifyA, hp, ih h]

theorem lookupA_insertA_self {K α : Type} [DecidableEq K] (k : K) (a : α)
    (l : List (K × α)) : lookupA k (insertA k a l) = some a := by
  simp [insertA, lookupA]

theorem sumByA_eraseA {K α : Type} [DecidableEq K] {k : K} {l : List (K × α)}
    {a : α} (f : α → Nat) (h : lookupA k l = some a) :
    sumByA f (eraseA k l) + f a = sumByA f l := by
  induction l with
  | nil => simp [lookupA] at h
  | cons p rest ih =>
    by_cases hp : p.1 = k
    · simp only [lookupA, if_pos hp, Option.some.injEq] at h
      simp only [eraseA, if_pos hp, sumByA, List.map_cons, List.sum_cons, h]
      omega
    · simp only [lookupA, if_neg hp] at h
      simp only [eraseA, if_neg hp, sumByA, List.map_cons, List.sum_cons]
      have := ih h
      simp only [sumByA] at this
      omega

theorem sumByA_modifyA {K α : Type} [DecidableEq K] {k : K} {l : List (K × α)}
    {a : α} (g : α → Nat) (f : α → α) (h : lookupA k l = some a) :
    sumByA g (modifyA k f l) + g a = sumByA g l + g (f a) := by
  induction l with
  | nil => simp [lookupA] at h
  | cons p rest ih =>
    by_cases hp : p.1 = k
    · simp only [lookupA, if_pos hp, Option.some.injEq] at h
      simp only [modifyA, if_pos hp, sumByA, List.map_cons, List.sum_cons, h]
      omega
    · simp only [lookupA, if_neg hp] at h
      simp only [modifyA, if_neg hp, sumByA, List.map_cons, List.sum_cons]
      have := ih h
      simp only [sumByA] at this
      omega

theorem lookupA_le_sumByA {K α : Type} [DecidableEq K] {k : K} {l : List (K × α)}
    {a : α} (f : α → Nat) (h : lookupA k l = some a) : f a ≤ sumByA f l := by
  induction l with
  | nil => simp [lookupA] at h
  | cons p rest ih =>
    by_cases hp : p.1 = k
    · simp only [lookupA, if_pos hp, Option.some.injEq] at h
      simp only [sumByA, List.map_cons, List.sum_cons, h]
      omega
    · simp only [lookupA, if_neg hp] at h
      have := ih h
      simp only [sumByA, List.map_cons, List.sum_cons]
      simp only [sumByA] at this
      omega

theorem lookupA_pair_le_sumByA {K α : Type} [DecidableEq K] {k1 k2 : K}
    {l : List (K × α)} {a1 a2 : α} (f : α → Nat) (h1 : lookupA k1 l = some a1)
    (h2 : lookupA k2 l = some a2) (hne : k1 ≠ k2) :
    f a1 + f a2 ≤ sumByA f l := by
  have he : lookupA k2 (eraseA k1 l) = some a2 := by
    rw [lookupA_eraseA_ne l (fun e => hne e.symm)]
    exact h2
  have hle : f a2 ≤ sumByA f (eraseA k1 l) := lookupA_le_sumByA f he
  have hsum := sumByA_eraseA f h1
  omega

theorem keysA_eq_nil_iff {K α : Type} (l : List (K × α)) :
    keysA l = [] ↔ l = [] := by
  cases l <;> simp [keysA]

theorem sumByA_eq_of_unique_key {K α : Type} [DecidableEq K] {kg : K}
    {l : List (K × α)} {a : α} (f : α → Nat) (hnd : (keysA l).Nodup)
    (huniq : ∀ j ∈ keysA l, j = kg) (h : lookupA kg l = some a) :
    sumByA f l = f a := by
  cases l with
  | nil => simp [lookupA] at h
  | cons p rest =>
    have hp : p.1 = kg := huniq p.1 (by simp [keysA])
    have hrest : rest = [] := by
      cases rest with
      | nil => rfl
      | cons q rest' =>
        exfalso
        have hq : q.1 = kg := huniq q.1 (by simp [keysA])
        simp only [keysA, List.map_cons, List.nodup_cons, List.mem_cons] at hnd
        exact hnd.1 (Or.inl (hp.trans hq.symm))
    subst hrest
    simp only [lookupA, if_pos hp, Option.some.injEq] at h
    simp [sumByA, h]

theorem costSumF_le_length {K : Type} [DecidableEq K] (ig : Option K)
    (dq : List K) : costSumF ig dq ≤ dq.length := by
  induction dq with
  | nil => simp [costSumF]
  | cons k rest ih =>
    simp only [costSumF, List.map_cons, List.sum_cons, List.length_cons]
    have : igCost ig k ≤ 1 := by
      unfold igCost
      split <;> omega
    simp only [costSumF] at ih
    omega

theorem headIndF_le_one {K : Type} [DecidableEq K] (ig : Option K)
    (dq : List K) : headIndF ig dq ≤ 1 := by
  cases dq with
  | nil => simp [headIndF]
  | cons k rest =>
    simp only [headIndF]
    split <;> omega

/-! ## Claim theorems: concrete scenarios -/

/-- Claim C5: on an `S3FIFO` of capacity 10, after `put(i, i, 1)` for
`i = 1, ..., 10`, the eleventh call `put(11, 11, 1)` returns `Ok(Some([10]))`,
a subsequent `get(10)` misses and `get(11)` returns the stored value. -/
theorem c5_ten_puts_then_eleventh : c5_obs = some (some [10], none, some 11) := by
  rfl

/-- Claim C7: on a `FIFO` of capacity 10, after
`put(1,1,3); put(2,2,2); put(3,3,4); put(4,4,1)`, the fifth call `put(5,5,5)`
reports exactly the victim records `{1,1,3,0}` and `{2,2,2,0}` in this order,
and `used_capacity = 10` afterwards. -/
theorem c7_fifo_five_puts :
    c7_obs = some (some [{ key := 1, value := 1, weight := 3, freq := 0 },
                         { key := 2, value := 2, weight := 2, freq := 0 }], 10) := by
  rfl

/-- Counterexample to claim C8: on the `S3FIFO` facade of capacity 2 the
split is main = 1, small = 0, ghost = 1, so the very first `put(1, 1, 1)` of
the claimed sequence already fails with `BeyondCapacity` (1 exceeds small's
capacity 0) instead of succeeding. -/
theorem c8_counterexample :
    S3FIFO.put (S3FIFO.new 2) 1 1 1 =
      some (Except.error S3FIFOError.BeyondCapacity, S3FIFO.new 2) := by
  rfl

/-- Claim C8 as amended: the scenario `put(1,1,1); remove(1); put(2,2,2)`
with the claimed observations holds on a `FIFO` sub-queue of capacity 2
(matching the repository's own sub-queue tests), not on the facade:
`get(1)` misses, `get(2)` returns the value, and the internal ordered
sequence holds exactly one key. -/
theorem c8_amended_fifo_capacity_two : c8_obs = some (none, some 2, 1) := by
  rfl

/-- Claim C9: `GhostFIFO::get` returns true iff the key is present and not
tombstoned, and it never modifies the queue state. -/
theorem c9_ghost_get_readonly {K : Type} [DecidableEq K] (c : GhostFIFO K)
    (k : K) :
    ((c.get k).1 = true ↔ ∃ it, lookupA k c.hash = some it ∧ it.removed = false) ∧
    (c.get k).2 = c := by
  unfold GhostFIFO.get
  cases h : lookupA k c.hash with
  | none => simp [h]
  | some item =>
    cases hr : item.removed <;> simp [h, hr]

/-- Counterexample to claim C1: on the facade, when the key is recorded in
ghost and the weight exceeds main's capacity, `put` returns `BeyondCapacity`
but the cache state has changed — the ghost entry of the key was tombstoned
before the error was raised (src/lib.rs lines 47-50). -/
theorem c1_counterexample :
    S3FIFO.put c1_cex 1 0 10 =
      some (Except.error S3FIFOError.BeyondCapacity, c1_cex_after) ∧
    c1_cex_after ≠ c1_cex := by
  exact ⟨rfl, by decide⟩

/-- Claim C1 as amended: a `put` returning `BeyondCapacity` leaves the state
unchanged on each of the three sub-queues, and on the facade along the
small route; along the ghost route the facade returns the error with exactly
one state change, the tombstoning of the key in ghost. -/
theorem c1_amended {K V : Type} [DecidableEq K] :
    (∀ (c : FIFO K V) (k : K) (v : V) (w : Nat), c.capacity < w →
      c.put k v w = some (Except.error FIFOError.BeyondCapacity, c)) ∧
    (∀ (c : FIFOReinsertion K V) (k : K) (v : V) (w : Nat), c.capacity < w →
      c.put k v w = some (Except.error FIFOReinsertionError.BeyondCapacity, c)) ∧
    (∀ (c : GhostFIFO K) (k : K) (w : Nat), c.capacity < w →
      c.put k w = some (Except.error GhostFIFOError.BeyondCapacity, c)) ∧
    (∀ (c : S3FIFO K V) (k : K) (v : V) (w : Nat),
      (c.ghost.get k).1 = false → c.small.capacity < w →
      c.put k v w = some (Except.error S3FIFOError.BeyondCapacity, c)) ∧
    (∀ (c : S3FIFO K V) (k : K) (v : V) (w : Nat),
      (c.ghost.get k).1 = true → c.main.capacity < w →
      c.put k v w = some (Except.error S3FIFOError.BeyondCapacity,
        { c with ghost := c.ghost.remove k })) := by
  refine ⟨?_, ?_, ?_, ?_, ?_⟩
  · intro c k v w h
    simp [FIFO.put, h]
  · intro c k v w h
    simp [FIFOReinsertion.put, h]
  · intro c k w h
    simp [GhostFIFO.put, h]
  · intro c k v w hg h
    simp [S3FIFO.put, hg, FIFO.put, h]
  · intro c k v w hg h
    simp [S3FIFO.put, hg, FIFOReinsertion.put, h]

/-- Closed witness for `c1_amended` at concrete inputs, discharging each
hypothesis by computation. -/
theorem c1_amended_witness :
    (FIFO.put (FIFO.new 1) 1 1 2 =
      some (Except.error FIFOError.BeyondCapacity, FIFO.new 1)) ∧
    (FIFOReinsertion.put (FIFOReinsertion.new 1) 1 1 2 =
      some (Except.error FIFOReinsertionError.BeyondCapacity, FIFOReinsertion.new 1)) ∧
    (GhostFIFO.put (GhostFIFO.new 1) 1 2 =
      some (Except.error GhostFIFOError.BeyondCapacity, GhostFIFO.new 1)) ∧
    (S3FIFO.put (S3FIFO.new 10) 1 0 2 =
      some (Except.error S3FIFOError.BeyondCapacity, S3FIFO.new 10)) ∧
    (S3FIFO.put c1_cex 1 0 10 =
      some (Except.error S3FIFOError.BeyondCapacity,
        { c1_cex with ghost := c1_cex.ghost.remove 1 })) :=
  ⟨(@c1_amended Nat Nat _).1 (FIFO.new 1) 1 1 2 (by decide),
   (@c1_amended Nat Nat _).2.1 (FIFOReinsertion.new 1) 1 1 2 (by decide),
   (@c1_amended Nat Nat _).2.2.1 (GhostFIFO.new 1) 1 2 (by decide),
   (@c1_amended Nat Nat _).2.2.2.1 (S3FIFO.new 10) 1 0 2 (by decide) (by decide),
   (@c1_amended Nat Nat _).2.2.2.2 c1_cex 1 0 10 (by decide) (by decide)⟩

/-- Counterexample to claim C6: a live entry whose `freq` is
`usize::MAX - 1`, one below the representation maximum.  A successful `get`
leaves `freq` unchanged (the source guard is `freq + 1 < usize::MAX`), so the
counter is neither incremented by one nor already at the representation
maximum: `freq` saturates one step early. -/
theorem c6_counterexample :
    (c6_cex.get 1).1 = some 5 ∧
    lookupA 1 c6_cex.hash =
      some { value := 5, weight := 1, freq := USIZE_MAX - 1, removed := false } ∧
    lookupA 1 ((c6_cex.get 1).2).hash =
      some { value := 5, weight := 1, freq := USIZE_MAX - 1, removed := false } ∧
    USIZE_MAX - 1 ≠ USIZE_MAX := by
  refine ⟨rfl, rfl, rfl, by decide⟩

/-- Claim C6 as amended: `FIFO`'s `freq` counter saturates at
`usize::MAX - 1`: a `get` of a live entry returns its value and bumps `freq`
by one exactly when `freq + 1 < usize::MAX`, leaving it unchanged otherwise;
in particular `freq` never decreases, so it is monotonically non-decreasing
across successive `get`s and never wraps. -/
theorem c6_amended {K V : Type} [DecidableEq K] (c : FIFO K V) (k : K)
    (it : FifoItem V) (hl : lookupA k c.hash = some it)
    (hlive : it.removed = false) :
    (c.get k).1 = some it.value ∧
    lookupA k ((c.get k).2).hash =
      some (if it.freq + 1 < USIZE_MAX then { it with freq := it.freq + 1 } else it) ∧
    it.freq ≤
      (if it.freq + 1 < USIZE_MAX then { it with freq := it.freq + 1 } else it).freq := by
  have hget1 : (c.get k).1 = some it.value := by
    simp [FIFO.get, hl, hlive]
  have hget2 : ((c.get k).2).hash = modifyA k
      (fun x => if x.freq + 1 < USIZE_MAX then { x with freq := x.freq + 1 } else x)
      c.hash := by
    simp [FIFO.get, hl, hlive]
  refine ⟨hget1, ?_, ?_⟩
  · rw [hget2, lookupA_modifyA_self, hl]
    rfl
  · split <;> simp

/-- Closed witness for `c6_amended`: a live entry with `freq = 0` is bumped
to `freq = 1` by `get`. -/
theorem c6_amended_witness :
    (((⟨[(1, ⟨7, 1, 0, false⟩)], [1], 1, 5⟩ : FIFO Nat Nat).get 1).1 = some 7) ∧
    lookupA 1 (((⟨[(1, ⟨7, 1, 0, false⟩)], [1], 1, 5⟩ : FIFO Nat Nat).get 1).2).hash =
      some (if 0 + 1 < USIZE_MAX then { (⟨7, 1, 0, false⟩ : FifoItem Nat) with freq := 0 + 1 }
            else ⟨7, 1, 0, false⟩) ∧
    (0 : Nat) ≤ (if 0 + 1 < USIZE_MAX then { (⟨7, 1, 0, false⟩ : FifoItem Nat) with freq := 0 + 1 }
            else ⟨7, 1, 0, false⟩).freq :=
  c6_amended (⟨[(1, ⟨7, 1, 0, false⟩)], [1], 1, 5⟩ : FIFO Nat Nat) 1 ⟨7, 1, 0, false⟩
    (by decide) (by decide)

/-- Claim C2: `put_with_freq` (modelled from the spec, since its definition is
not among the provided sources) behaves exactly like `put` except that a
freshly inserted entry's hit flag starts as `(f > 0)`; the facade promotes a
small-queue victim with positive `freq` into main via
`put_with_freq(key, value, weight, freq - 1)` and collects the keys that main
evicts during that insertion, so a promoted victim enters main with its hit
bit set exactly when `freq ≥ 2`. -/
theorem c2_put_with_freq {K V : Type} [DecidableEq K] :
    (∀ (c : FIFOReinsertion K V) (k : K) (v : V) (w : Nat),
      c.put_with_freq k v w 0 = c.put k v w) ∧
    (∀ (c : FIFOReinsertion K V) (k : K) (v : V) (w f : Nat)
      (r : Option (List K)) (c' : FIFOReinsertion K V),
      lookupA k c.hash = none →
      c.put_with_freq k v w f = some (Except.ok r, c') →
      lookupA k c'.hash =
        some { value := v, weight := w, hit := decide (0 < f), removed := false }) ∧
    (∀ (c : S3FIFO K V) (k : K) (v : V) (w : Nat) (victim : Removed K V)
      (small' : FIFO K V) (r : Option (List K)) (main' : FIFOReinsertion K V),
      (c.ghost.get k).1 = false →
      c.small.put k v w = some (Except.ok (some [victim]), small') →
      0 < victim.freq →
      c.main.put_with_freq victim.key victim.value victim.weight (victim.freq - 1) =
        some (Except.ok r, main') →
      c.put k v w = some (Except.ok (some (r.getD [])),
        { c with small := small', main := main' })) ∧
    (∀ (c : S3FIFO K V) (k : K) (v : V) (w : Nat) (victim : Removed K V)
      (small' : FIFO K V) (r : Option (List K)) (main' : FIFOReinsertion K V),
      (c.ghost.get k).1 = false →
      c.small.put k v w = some (Except.ok (some [victim]), small') →
      0 < victim.freq →
      lookupA victim.key c.main.hash = none →
      c.main.put_with_freq victim.key victim.value victim.weight (victim.freq - 1) =
        some (Except.ok r, main') →
      lookupA victim.key main'.hash =
        some { value := victim.value, weight := victim.weight,
               hit := decide (2 ≤ victim.freq), removed := false }) := by
  have hfresh : ∀ (c : FIFOReinsertion K V) (k : K) (v : V) (w f : Nat)
      (r : Option (List K)) (c' : FIFOReinsertion K V),
      lookupA k c.hash = none →
      c.put_with_freq k v w f = some (Except.ok r, c') →
      lookupA k c'.hash =
        some { value := v, weight := w, hit := decide (0 < f), removed := false } := by
    intro c k v w f r c' habs hput
    unfold FIFOReinsertion.put_with_freq at hput
    by_cases hcap : c.capacity < w
    · simp [hcap] at hput
    · rw [if_neg hcap] at hput
      rw [habs] at hput
      simp only [Option.isSome_none, Bool.false_eq_true, if_false] at hput
      unfold FIFOReinsertion.insert_with_freq at hput
      cases hfree : c.free w none with
      | none => rw [hfree] at hput; exact absurd hput (by simp)
      | some p =>
        rw [hfree] at hput
        simp only [Option.some.injEq, Prod.mk.injEq, Except.ok.injEq] at hput
        rw [← hput.2]
        exact lookupA_insertA_self _ _ _
  refine ⟨?_, hfresh, ?_, ?_⟩
  · intro c k v w
    unfold FIFOReinsertion.put_with_freq FIFOReinsertion.put
      FIFOReinsertion.insert_with_freq FIFOReinsertion.insert
    rfl
  · intro c k v w victim small' r main' hg hs hf hm
    unfold S3FIFO.put
    rw [if_neg (by simp [hg])]
    rw [hs]
    simp only [S3FIFO.processVictims, if_pos hf]
    rw [show ({ c with small := small' } : S3FIFO K V).main = c.main from rfl, hm]
    cases r with
    | none => rfl
    | some l => simp [S3FIFO.processVictims]
  · intro c k v w victim small' r main' hg hs hf habs hm
    have := hfresh c.main victim.key victim.value victim.weight (victim.freq - 1)
      r main' habs hm
    rw [this]
    have : decide (0 < victim.freq - 1) = decide (2 ≤ victim.freq) := by
      apply decide_eq_decide.mpr
      omega
    rw [this]


/-- Closed witness for `c2_put_with_freq`: on `c2_wit` (small of capacity 1
holding key 1 with `freq = 2`), the facade put of key 2 promotes victim 1
into main with its hit bit set; every hypothesis is discharged by
computation. -/
theorem c2_put_with_freq_witness :
    ((FIFOReinsertion.new 3 : FIFOReinsertion Nat Nat).put_with_freq 1 1 1 0 =
      (FIFOReinsertion.new 3 : FIFOReinsertion Nat Nat).put 1 1 1) ∧
    (c2_wit.put 2 2 1 = some (Except.ok (some ((none : Option (List Nat)).getD [])),
      { c2_wit with
          small := { hash := [(2, { value := 2, weight := 1, freq := 0, removed := false })],
                     vec_deque := [2], used_capacity := 1, capacity := 1 },
          main := { hash := [(1, { value := 1, weight := 1, hit := true, removed := false })],
                    vec_deque := [1], used_capacity := 1, capacity := 9 } })) ∧
    (lookupA 1 (({ hash := [(1, { value := 1, weight := 1, hit := true, removed := false })],
                   vec_deque := [1], used_capacity := 1, capacity := 9 } :
                 FIFOReinsertion Nat Nat)).hash =
      some { value := 1, weight := 1, hit := decide (2 ≤ 2), removed := false }) := by
  refine ⟨(@c2_put_with_freq Nat Nat _).1 (FIFOReinsertion.new 3) 1 1 1, ?_, ?_⟩
  · exact (@c2_put_with_freq Nat Nat _).2.2.1 c2_wit 2 2 1
      { key := 1, value := 1, weight := 1, freq := 2 }
      { hash := [(2, { value := 2, weight := 1, freq := 0, removed := false })],
        vec_deque := [2], used_capacity := 1, capacity := 1 } none
      { hash := [(1, { value := 1, weight := 1, hit := true, removed := false })],
        vec_deque := [1], used_capacity := 1, capacity := 9 }
      (by decide) (by rfl) (by decide) (by rfl)
  · exact (@c2_put_with_freq Nat Nat _).2.2.2 c2_wit 2 2 1
      { key := 1, value := 1, weight := 1, freq := 2 }
      { hash := [(2, { value := 2, weight := 1, freq := 0, removed := false })],
        vec_deque := [2], used_capacity := 1, capacity := 1 } none
      { hash := [(1, { value := 1, weight := 1, hit := true, removed := false })],
        vec_deque := [1], used_capacity := 1, capacity := 9 }
      (by decide) (by rfl) (by decide) (by rfl) (by rfl)

/-! ## The eviction loop of `FIFO`: step lemmas and the main specification -/

theorem costSumF_cons {K : Type} [DecidableEq K] (ig : Option K) (k : K)
    (dq : List K) : costSumF ig (k :: dq) = igCost ig k + costSumF ig dq := by
  simp [costSumF]

theorem costSumF_append_singleton {K : Type} [DecidableEq K] (ig : Option K)
    (k : K) (dq : List K) :
    costSumF ig (dq ++ [k]) = costSumF ig dq + igCost ig k := by
  simp [costSumF, igCost]

theorem FIFO.freeAux_exitF {K V : Type} [DecidableEq K] (fuel w : Nat)
    (ig : Option K) (c : FIFO K V) (acc : List (Removed K V))
    (hcond : ¬c.capacity < c.used_capacity + w) :
    FIFO.freeAux fuel w ig c acc = some (acc, c) := by
  cases fuel <;> simp [FIFO.freeAux, hcond]

theorem FIFO.freeAux_step_removedF {K V : Type} [DecidableEq K] (fuel w : Nat)
    (ig : Option K) (hash : List (K × FifoItem V)) (key : K) (rest : List K)
    (used cap : Nat) (acc : List (Removed K V)) (item : FifoItem V)
    (hcond : cap < used + w) (hitem : lookupA key hash = some item)
    (hrm : item.removed = true) :
    FIFO.freeAux (fuel + 1) w ig ⟨hash, key :: rest, used, cap⟩ acc =
    FIFO.freeAux fuel w ig ⟨eraseA key hash, rest, used - item.weight, cap⟩ acc := by
  conv_lhs => rw [FIFO.freeAux]
  simp [hcond, hitem, hrm]

theorem FIFO.freeAux_step_rotateF {K V : Type} [DecidableEq K] (fuel w : Nat)
    (ig : Option K) (hash : List (K × FifoItem V)) (key : K) (rest : List K)
    (used cap : Nat) (acc : List (Removed K V)) (item : FifoItem V)
    (hcond : cap < used + w) (hitem : lookupA key hash = some item)
    (hrm : item.removed = false) (hig : some key = ig) :
    FIFO.freeAux (fuel + 1) w ig ⟨hash, key :: rest, used, cap⟩ acc =
    FIFO.freeAux fuel w ig ⟨hash, rest ++ [key], used, cap⟩ acc := by
  conv_lhs => rw [FIFO.freeAux]
  simp [hcond, hitem, hrm, hig]

theorem FIFO.freeAux_step_evictF {K V : Type} [DecidableEq K] (fuel w : Nat)
    (ig : Option K) (hash : List (K × FifoItem V)) (key : K) (rest : List K)
    (used cap : Nat) (acc : List (Removed K V)) (item : FifoItem V)
    (hcond : cap < used + w) (hitem : lookupA key hash = some item)
    (hrm : item.removed = false) (hig : ¬some key = ig) :
    FIFO.freeAux (fuel + 1) w ig ⟨hash, key :: rest, used, cap⟩ acc =
    FIFO.freeAux fuel w ig ⟨eraseA key hash, rest, used - item.weight, cap⟩
      (acc ++ [{ key := key, value := item.value, weight := item.weight,
                 freq := item.freq }]) := by
  conv_lhs => rw [FIFO.freeAux]
  simp [hcond, hitem, hrm, hig]

theorem FIFO.freeAux_specF {K V : Type} [DecidableEq K] (w : Nat) (ig : Option K) :
    ∀ (fuel : Nat) (c : FIFO K V) (acc : List (Removed K V)),
      FIFO.FreeInv c ig w → FIFO.mu c ig ≤ fuel →
      ∃ acc₂ c₂, FIFO.freeAux fuel w ig c acc = some (acc₂, c₂) ∧
        FIFO.FreeInv c₂ ig w ∧ c₂.capacity = c.capacity ∧
        (∀ k, k ∈ keysA c₂.hash → k ∈ keysA c.hash) ∧
        c₂.used_capacity + w ≤ c₂.capacity := by
  intro fuel
  induction fuel with
  | zero =>
    intro c acc hInv hmu
    exfalso
    simp only [FIFO.mu] at hmu
    omega
  | succ fuel ih =>
    intro c acc hInv hmu
    obtain ⟨hash, dq, used, cap⟩ := c
    simp only [FIFO.FreeInv, FIFO.sumW, FIFO.mu] at hInv hmu
    obtain ⟨hndk, hnddq, hmem, hacct⟩ := hInv
    by_cases hcond : cap < used + w
    · cases dq with
      | nil =>
        exfalso
        have hkeys : keysA hash = [] := by
          by_contra h
          rcases List.exists_mem_of_ne_nil _ h with ⟨j, hj⟩
          exact absurd ((hmem j).mpr hj) (List.not_mem_nil j)
        have hh : hash = [] := (keysA_eq_nil_iff hash).mp hkeys
        subst hh
        rcases hacct with ⟨hig, hsum, hwcap⟩ | ⟨kg, it, hig, hlkg, hlive, hsum, hwle, hwcap⟩
        · simp only [sumByA, List.map_nil, List.sum_nil] at hsum
          omega
        · simp [lookupA] at hlkg
      | cons key rest =>
        have hkmem : key ∈ keysA hash := (hmem key).mp (List.mem_cons_self key rest)
        rcases Option.isSome_iff_exists.mp
          ((mem_keysA_iff_lookupA key hash).mp hkmem) with ⟨item, hitem⟩
        rcases List.nodup_cons.mp hnddq with ⟨hkrest, hndrest⟩
        have hsum_erase : sumByA (fun it => it.weight) (eraseA key hash) + item.weight =
            sumByA (fun it => it.weight) hash := sumByA_eraseA (fun it => it.weight) hitem
        have hw_le : item.weight ≤ sumByA (fun it => it.weight) hash :=
          lookupA_le_sumByA (fun it => it.weight) hitem
        have hmem' : ∀ k, k ∈ rest ↔ k ∈ keysA (eraseA key hash) := by
          intro k
          rw [keysA_eraseA]
          constructor
          · intro hk
            have hkne : k ≠ key := fun e => hkrest (e ▸ hk)
            exact (List.mem_erase_of_ne hkne).mpr ((hmem k).mp (List.mem_cons_of_mem _ hk))
          · intro hk
            rcases (List.Nodup.mem_erase_iff hndk).mp hk with ⟨hne, hmem2⟩
            rcases List.mem_cons.mp ((hmem k).mpr hmem2) with he | hr
            · exact absurd he hne
            · exact hr
        have hnd' : (keysA (eraseA key hash)).Nodup := by
          rw [keysA_eraseA]
          exact hndk.erase _
        have main_erase : ∀ acc' : List (Removed K V), ¬some key = ig →
            ∃ acc₂ c₂,
              FIFO.freeAux fuel w ig ⟨eraseA key hash, rest, used - item.weight, cap⟩ acc' =
                some (acc₂, c₂) ∧
              FIFO.FreeInv c₂ ig w ∧ c₂.capacity = cap ∧
              (∀ k, k ∈ keysA c₂.hash → k ∈ keysA hash) ∧
              c₂.used_capacity + w ≤ c₂.capacity := by
          intro acc' hkig
          have hcost : costSumF ig (key :: rest) = 1 + costSumF ig rest := by
            rw [costSumF_cons]
            congr 1
            unfold igCost
            rw [if_neg hkig]
          have hh1 := headIndF_le_one ig rest
          have hmu' : FIFO.mu ⟨eraseA key hash, rest, used - item.weight, cap⟩ ig ≤ fuel := by
            simp only [FIFO.mu]
            rw [hcost] at hmu
            omega
          have hacct' :
              (ig = none ∧ sumByA (fun it => it.weight) (eraseA key hash) =
                used - item.weight ∧ w ≤ cap) ∨
              (∃ kg it, ig = some kg ∧ lookupA kg (eraseA key hash) = some it ∧
                it.removed = false ∧
                sumByA (fun it => it.weight) (eraseA key hash) =
                  (used - item.weight) + w ∧ w ≤ it.weight ∧ it.weight ≤ cap) := by
            rcases hacct with ⟨hig, hsum, hwcap⟩ | ⟨kg, it, hig, hlkg, hlive, hsum, hwle, hwcap⟩
            · exact Or.inl ⟨hig, by omega, hwcap⟩
            · have hkkg : key ≠ kg := by
                intro e
                apply hkig
                rw [hig, e]
              have hpair : item.weight + it.weight ≤ sumByA (fun it => it.weight) hash :=
                lookupA_pair_le_sumByA (fun it => it.weight) hitem hlkg hkkg
              have hlkg' : lookupA kg (eraseA key hash) = some it := by
                rw [lookupA_eraseA_ne _ (Ne.symm hkkg)]
                exact hlkg
              exact Or.inr ⟨kg, it, hig, hlkg', hlive, by omega, hwle, hwcap⟩
          rcases ih ⟨eraseA key hash, rest, used - item.weight, cap⟩ acc'
            ⟨hnd', hndrest, hmem', hacct'⟩ hmu' with
            ⟨acc₂, c₂, heq, hInv₂, hcap₂, hsub₂, hle₂⟩
          refine ⟨acc₂, c₂, heq, hInv₂, hcap₂, ?_, hle₂⟩
          intro k hk
          have := hsub₂ k hk
          rw [keysA_eraseA] at this
          exact List.mem_of_mem_erase this
        by_cases hrm : item.removed
        · have hkig : ¬some key = ig := by
            rcases hacct with ⟨hig, _, _⟩ | ⟨kg, it, hig, hlkg, hlive, _, _, _⟩
            · rw [hig]
              simp
            · rw [hig]
              intro h
              have hkkg : key = kg := by injection h
              rw [hkkg, hlkg] at hitem
              have : it = item := by injection hitem
              rw [← this] at hrm
              rw [hlive] at hrm
              exact Bool.false_ne_true hrm
          rcases main_erase acc hkig with ⟨acc₂, c₂, heq, hInv₂, hcap₂, hsub₂, hle₂⟩
          refine ⟨acc₂, c₂, ?_, hInv₂, hcap₂, hsub₂, hle₂⟩
          rw [FIFO.freeAux_step_removedF fuel w ig hash key rest used cap acc item
            hcond hitem hrm, heq]
        · have hrm' : item.removed = false := by
            cases h : item.removed
            · rfl
            · exact absurd h hrm
          by_cases hig2 : some key = ig
          · rcases hacct with ⟨hig, hsum, hwcap⟩ | ⟨kg, it, hig, hlkg, hlive, hsum, hwle, hwcap⟩
            · rw [hig] at hig2
              exact absurd hig2 (by simp)
            · have hkkg : key = kg := by
                rw [hig] at hig2
                injection hig2
              subst hkkg
              have hit_eq : item = it := by
                rw [hitem] at hlkg
                injection hlkg
              cases rest with
              | nil =>
                exfalso
                have huniq : ∀ j ∈ keysA hash, j = key := by
                  intro j hj
                  have := (hmem j).mpr hj
                  simpa using this
                have hsum_one : sumByA (fun it => it.weight) hash = item.weight :=
                  sumByA_eq_of_unique_key (fun it => it.weight) hndk huniq hitem
                rw [hit_eq] at hsum_one
                omega
              | cons r0 rs =>
                have hr0key : r0 ≠ key := by
                  intro e
                  exact hkrest (by rw [← e]; exact List.mem_cons_self r0 rs)
                have hnd2 : ((r0 :: rs) ++ [key]).Nodup :=
                  ((List.perm_append_singleton key (r0 :: rs)).nodup_iff).mpr hnddq
                have hmem2 : ∀ k, k ∈ (r0 :: rs) ++ [key] ↔ k ∈ keysA hash := by
                  intro k
                  rw [← hmem k]
                  simp only [List.mem_append, List.mem_cons, List.mem_singleton,
                    List.not_mem_nil, or_false]
                  tauto
                have hcost : costSumF ig (key :: r0 :: rs) = costSumF ig (r0 :: rs) := by
                  rw [costSumF_cons]
                  have : igCost ig key = 0 := by
                    unfold igCost
                    rw [if_pos hig2]
                  omega
                have hcost2 : costSumF ig ((r0 :: rs) ++ [key]) = costSumF ig (r0 :: rs) := by
                  rw [costSumF_append_singleton]
                  have : igCost ig key = 0 := by
                    unfold igCost
                    rw [if_pos hig2]
                  omega
                have hhead1 : headIndF ig (key :: r0 :: rs) = 1 := by
                  simp only [headIndF]
                  rw [if_pos hig2]
                have hhead2 : headIndF ig ((r0 :: rs) ++ [key]) = 0 := by
                  simp only [List.cons_append, headIndF]
                  rw [if_neg]
                  intro h
                  rw [hig] at h
                  have e1 : r0 = key := by injection h
                  exact hr0key e1
                have hmu' : FIFO.mu ⟨hash, (r0 :: rs) ++ [key], used, cap⟩ ig ≤ fuel := by
                  simp only [FIFO.mu, hcost2]
                  rw [hcost, hhead1] at hmu
                  omega
                rcases ih ⟨hash, (r0 :: rs) ++ [key], used, cap⟩ acc
                  ⟨hndk, hnd2, hmem2,
                   Or.inr ⟨key, it, hig, hlkg, hlive, hsum, hwle, hwcap⟩⟩ hmu' with
                  ⟨acc₂, c₂, heq, hInv₂, hcap₂, hsub₂, hle₂⟩
                refine ⟨acc₂, c₂, ?_, hInv₂, hcap₂, hsub₂, hle₂⟩
                rw [FIFO.freeAux_step_rotateF fuel w ig hash key (r0 :: rs) used cap acc
                  item hcond hitem hrm' hig2, heq]
          · rcases main_erase
              (acc ++ [{ key := key, value := item.value, weight := item.weight,
                         freq := item.freq }]) hig2 with
              ⟨acc₂, c₂, heq, hInv₂, hcap₂, hsub₂, hle₂⟩
            refine ⟨acc₂, c₂, ?_, hInv₂, hcap₂, hsub₂, hle₂⟩
            rw [FIFO.freeAux_step_evictF fuel w ig hash key rest used cap acc item
              hcond hitem hrm' hig2, heq]
    · refine ⟨acc, ⟨hash, dq, used, cap⟩,
        FIFO.freeAux_exitF (fuel + 1) w ig _ acc hcond, ?_, rfl, fun k hk => hk, ?_⟩
      · exact ⟨hndk, hnddq, hmem, hacct⟩
      · show used + w ≤ cap
        omega

theorem FIFO.free_specF {K V : Type} [DecidableEq K] {c : FIFO K V} {w : Nat}
    {ig : Option K} (hInv : FIFO.FreeInv c ig w) :
    ∃ r c₂, c.free w ig = some (r, c₂) ∧ FIFO.FreeInv c₂ ig w ∧
      c₂.capacity = c.capacity ∧ (∀ k, k ∈ keysA c₂.hash → k ∈ keysA c.hash) ∧
      c₂.used_capacity + w ≤ c₂.capacity := by
  have hmu : FIFO.mu c ig ≤ 4 * c.vec_deque.length + 4 := by
    have h1 := costSumF_le_length ig c.vec_deque
    have h2 := headIndF_le_one ig c.vec_deque
    simp only [FIFO.mu]
    omega
  rcases FIFO.freeAux_specF w ig (4 * c.vec_deque.length + 4) c [] hInv hmu with
    ⟨acc₂, c₂, heq, hInv₂, hcap₂, hsub₂, hle₂⟩
  refine ⟨if acc₂.isEmpty then none else some acc₂, c₂, ?_, hInv₂, hcap₂, hsub₂, hle₂⟩
  unfold FIFO.free
  rw [heq]

theorem FIFO.new_InvF {K V : Type} [DecidableEq K] (capacity : Nat) :
    FIFO.Inv (FIFO.new capacity : FIFO K V) := by
  refine ⟨?_, ?_, ?_, ?_, ?_⟩ <;>
    simp [FIFO.new, keysA, FIFO.sumW, sumByA]

theorem FIFO.put_InvF {K V : Type} [DecidableEq K] {c c' : FIFO K V} {key : K}
    {v : V} {w : Nat} {r : Except FIFOError (Option (List (Removed K V)))}
    (hInv : FIFO.Inv c) (h : c.put key v w = some (r, c')) : FIFO.Inv c' := by
  obtain ⟨hndk, hnddq, hmem, hsum, hcapb⟩ := hInv
  have hsumB : sumByA (fun it => it.weight) c.hash = c.used_capacity := hsum
  unfold FIFO.put at h
  by_cases hcap : c.capacity < w
  · rw [if_pos hcap] at h
    simp only [Option.some.injEq, Prod.mk.injEq] at h
    rw [← h.2]
    exact ⟨hndk, hnddq, hmem, hsum, hcapb⟩
  · rw [if_neg hcap] at h
    by_cases hk : (lookupA key c.hash).isSome
    · rw [if_pos hk] at h
      rcases Option.isSome_iff_exists.mp hk with ⟨item, hitem⟩
      have hw_le : item.weight ≤ sumByA (fun it => it.weight) c.hash :=
        lookupA_le_sumByA (fun it => it.weight) hitem
      simp only [FIFO.update, hitem] at h
      have hsummod : sumByA (fun it => it.weight)
          (modifyA key (fun it => { it with value := v, weight := w, removed := false }) c.hash) +
          item.weight = sumByA (fun it => it.weight) c.hash + w :=
        sumByA_modifyA (fun it => it.weight) _ hitem
      have hndk1 : (keysA (modifyA key
          (fun it => { it with value := v, weight := w, removed := false }) c.hash)).Nodup := by
        rw [keysA_modifyA]
        exact hndk
      have hmem1 : ∀ k, k ∈ c.vec_deque ↔ k ∈ keysA (modifyA key
          (fun it => { it with value := v, weight := w, removed := false }) c.hash) := by
        intro k
        rw [keysA_modifyA]
        exact hmem k
      by_cases hgrow : item.weight < w
      · rw [if_pos hgrow] at h
        have hFree : FIFO.FreeInv
            ⟨modifyA key (fun it => { it with value := v, weight := w, removed := false }) c.hash,
             c.vec_deque, c.used_capacity, c.capacity⟩ (some key) (w - item.weight) := by
          refine ⟨hndk1, hnddq, hmem1,
            Or.inr ⟨key, { value := v, weight := w, freq := item.freq, removed := false },
              rfl, ?_, rfl, ?_, ?_, ?_⟩⟩
          · show lookupA key (modifyA key _ c.hash) = _
            rw [lookupA_modifyA_self, hitem]
            rfl
          · show sumByA (fun it => it.weight) (modifyA key
              (fun it => { it with value := v, weight := w, removed := false }) c.hash) =
              c.used_capacity + (w - item.weight)
            omega
          · show w - item.weight ≤ w
            omega
          · show w ≤ c.capacity
            omega
        rcases FIFO.free_specF hFree with ⟨rk, c2, hfeq, hInv₂, hcap₂, hsub₂, hle₂⟩
        rw [hfeq] at h
        simp only [Option.some.injEq, Prod.mk.injEq] at h
        rw [← h.2]
        obtain ⟨hndk₂, hnddq₂, hmem₂, hacct₂⟩ := hInv₂
        rcases hacct₂ with ⟨hig, _, _⟩ | ⟨kg, it2, hig, hlkg₂, _, hsum₂, _, _⟩
        · exact absurd hig (by simp)
        · refine ⟨hndk₂, hnddq₂, hmem₂, ?_, ?_⟩
          · show FIFO.sumW c2 = c2.used_capacity + (w - item.weight)
            exact hsum₂
          · show c2.used_capacity + (w - item.weight) ≤ c2.capacity
            omega
      · rw [if_neg hgrow] at h
        simp only [Option.some.injEq, Prod.mk.injEq] at h
        rw [← h.2]
        refine ⟨hndk1, hnddq, hmem1, ?_, ?_⟩
        · show sumByA (fun it => it.weight) (modifyA key
            (fun it => { it with value := v, weight := w, removed := false }) c.hash) =
            c.used_capacity - (item.weight - w)
          omega
        · show c.used_capacity - (item.weight - w) ≤ c.capacity
          omega
    · rw [if_neg hk] at h
      have hkn : lookupA key c.hash = none := by
        cases hl : lookupA key c.hash
        · rfl
        · rw [hl] at hk
          exact absurd rfl hk
      have hFree : FIFO.FreeInv c none w :=
        ⟨hndk, hnddq, hmem, Or.inl ⟨rfl, hsum, by omega⟩⟩
      rcases FIFO.free_specF hFree with ⟨rk, c1, hfeq, hInv₁, hcap₁, hsub₁, hle₁⟩
      simp only [FIFO.insert] at h
      rw [hfeq] at h
      simp only [Option.some.injEq, Prod.mk.injEq] at h
      rw [← h.2]
      obtain ⟨hndk₁, hnddq₁, hmem₁, hacct₁⟩ := hInv₁
      have hsum₁ : FIFO.sumW c1 = c1.used_capacity := by
        rcases hacct₁ with ⟨_, hs, _⟩ | ⟨kg, it2, hig, _, _, _, _, _⟩
        · exact hs
        · exact absurd hig (by simp)
      have hkeyout : key ∉ keysA c1.hash := by
        intro hmem2
        have := hsub₁ key hmem2
        rw [lookupA_eq_none_iff] at hkn
        exact hkn this
      have hkn₁ : lookupA key c1.hash = none := (lookupA_eq_none_iff key c1.hash).mpr hkeyout
      have hdqout : key ∉ c1.vec_deque := fun hd => hkeyout ((hmem₁ key).mp hd)
      have hkeysins : keysA (insertA key
          { value := v, weight := w, freq := 0, removed := false } c1.hash) =
          key :: keysA c1.hash := by
        unfold insertA keysA
        rw [eraseA_eq_of_lookupA_none hkn₁]
        rfl
      refine ⟨?_, ?_, ?_, ?_, ?_⟩
      · show (keysA (insertA key _ c1.hash)).Nodup
        rw [hkeysins]
        exact List.nodup_cons.mpr ⟨hkeyout, hndk₁⟩
      · show (c1.vec_deque ++ [key]).Nodup
        exact ((List.perm_append_singleton key c1.vec_deque).nodup_iff).mpr
          (List.nodup_cons.mpr ⟨hdqout, hnddq₁⟩)
      · intro k
        show k ∈ c1.vec_deque ++ [key] ↔ k ∈ keysA (insertA key _ c1.hash)
        rw [hkeysins]
        simp only [List.mem_append, List.mem_cons, List.mem_singleton,
          List.not_mem_nil, or_false]
        rw [hmem₁ k]
        tauto
      · show sumByA (fun it => it.weight) (insertA key _ c1.hash) =
          c1.used_capacity + w
        unfold insertA
        rw [eraseA_eq_of_lookupA_none hkn₁]
        simp only [sumByA, List.map_cons, List.sum_cons]
        have : sumByA (fun it => it.weight) c1.hash = c1.used_capacity := hsum₁
        simp only [sumByA] at this
        omega
      · show c1.used_capacity + w ≤ c1.capacity
        exact hle₁

theorem FIFO.get_InvF {K V : Type} [DecidableEq K] {c : FIFO K V} (key : K)
    (hInv : FIFO.Inv c) : FIFO.Inv (c.get key).2 := by
  obtain ⟨hndk, hnddq, hmem, hsum, hcapb⟩ := hInv
  unfold FIFO.get
  cases hitem : lookupA key c.hash with
  | none => exact ⟨hndk, hnddq, hmem, hsum, hcapb⟩
  | some item =>
    by_cases hrm : item.removed
    · simp only [hrm, if_true]
      exact ⟨hndk, hnddq, hmem, hsum, hcapb⟩
    · have hrm' : item.removed = false := by
        cases hb : item.removed
        · rfl
        · exact absurd hb hrm
      simp only [hrm', Bool.false_eq_true, if_false]
      have hmod : sumByA (fun it => it.weight) (modifyA key
          (fun it => if it.freq + 1 < USIZE_MAX then { it with freq := it.freq + 1 } else it)
          c.hash) + item.weight = sumByA (fun it => it.weight) c.hash +
          (if item.freq + 1 < USIZE_MAX then { item with freq := item.freq + 1 }
           else item).weight :=
        sumByA_modifyA (fun it => it.weight) _ hitem
      have hw2 : (if item.freq + 1 < USIZE_MAX then { item with freq := item.freq + 1 }
          else item).weight = item.weight := by
        split <;> rfl
      rw [hw2] at hmod
      refine ⟨?_, hnddq, ?_, ?_, hcapb⟩
      · show (keysA (modifyA key _ c.hash)).Nodup
        rw [keysA_modifyA]
        exact hndk
      · intro k
        show k ∈ c.vec_deque ↔ k ∈ keysA (modifyA key _ c.hash)
        rw [keysA_modifyA]
        exact hmem k
      · show sumByA (fun it => it.weight) (modifyA key _ c.hash) = c.used_capacity
        have : sumByA (fun it => it.weight) c.hash = c.used_capacity := hsum
        omega

theorem FIFO.remove_InvF {K V : Type} [DecidableEq K] {c : FIFO K V} (key : K)
    (hInv : FIFO.Inv c) : FIFO.Inv (c.remove key) := by
  obtain ⟨hndk, hnddq, hmem, hsum, hcapb⟩ := hInv
  unfold FIFO.remove
  cases hitem : lookupA key c.hash with
  | none =>
    rw [modifyA_eq_of_lookupA_none _ hitem]
    exact ⟨hndk, hnddq, hmem, hsum, hcapb⟩
  | some item =>
    have hmod := sumByA_modifyA (fun it => it.weight)
      (fun it => { it with removed := true }) hitem
    refine ⟨?_, hnddq, ?_, ?_, hcapb⟩
    · show (keysA (modifyA key _ c.hash)).Nodup
      rw [keysA_modifyA]
      exact hndk
    · intro k
      show k ∈ c.vec_deque ↔ k ∈ keysA (modifyA key _ c.hash)
      rw [keysA_modifyA]
      exact hmem k
    · show sumByA (fun it => it.weight) (modifyA key _ c.hash) = c.used_capacity
      have : sumByA (fun it => it.weight) c.hash = c.used_capacity := hsum
      simp only [] at hmod
      omega

theorem FIFO.reachable_InvF {K V : Type} [DecidableEq K] {c : FIFO K V}
    (h : FIFO.Reachable c) : FIFO.Inv c := by
  induction h with
  | new capacity => exact FIFO.new_InvF capacity
  | put _ hput ih => exact FIFO.put_InvF ih hput
  | get _ ih => exact FIFO.get_InvF _ ih
  | remove _ ih => exact FIFO.remove_InvF _ ih

/-! ## The eviction loop of `FIFOReinsertion`: step lemmas and specification -/

theorem FIFOReinsertion.freeAux_exitR {K V : Type} [DecidableEq K] (fuel w : Nat)
    (ig : Option K) (c : FIFOReinsertion K V) (acc : List K)
    (hcond : ¬c.capacity < c.used_capacity + w) :
    FIFOReinsertion.freeAux fuel w ig c acc = some (acc, c) := by
  cases fuel <;> simp [FIFOReinsertion.freeAux, hcond]

theorem FIFOReinsertion.freeAux_step_removedR {K V : Type} [DecidableEq K]
    (fuel w : Nat) (ig : Option K) (hash : List (K × ReinsItem V)) (key : K)
    (rest : List K) (used cap : Nat) (acc : List K) (item : ReinsItem V)
    (hcond : cap < used + w) (hitem : lookupA key hash = some item)
    (hrm : item.removed = true) :
    FIFOReinsertion.freeAux (fuel + 1) w ig ⟨hash, key :: rest, used, cap⟩ acc =
    FIFOReinsertion.freeAux fuel w ig
      ⟨eraseA key hash, rest, used - item.weight, cap⟩ acc := by
  conv_lhs => rw [FIFOReinsertion.freeAux]
  simp [hcond, hitem, hrm]

theorem FIFOReinsertion.freeAux_step_rotateR {K V : Type} [DecidableEq K]
    (fuel w : Nat) (ig : Option K) (hash : List (K × ReinsItem V)) (key : K)
    (rest : List K) (used cap : Nat) (acc : List K) (item : ReinsItem V)
    (hcond : cap < used + w) (hitem : lookupA key hash = some item)
    (hrm : item.removed = false) (hig : some key = ig) :
    FIFOReinsertion.freeAux (fuel + 1) w ig ⟨hash, key :: rest, used, cap⟩ acc =
    FIFOReinsertion.freeAux fuel w ig ⟨hash, rest ++ [key], used, cap⟩ acc := by
  conv_lhs => rw [FIFOReinsertion.freeAux]
  simp [hcond, hitem, hrm, hig]

theorem FIFOReinsertion.freeAux_step_hit {K V : Type} [DecidableEq K]
    (fuel w : Nat) (ig : Option K) (hash : List (K × ReinsItem V)) (key : K)
    (rest : List K) (used cap : Nat) (acc : List K) (item : ReinsItem V)
    (hcond : cap < used + w) (hitem : lookupA key hash = some item)
    (hrm : item.removed = false) (hig : ¬some key = ig) (hhit : item.hit = true) :
    FIFOReinsertion.freeAux (fuel + 1) w ig ⟨hash, key :: rest, used, cap⟩ acc =
    FIFOReinsertion.freeAux fuel w ig
      ⟨modifyA key (fun it => { it with hit := false }) hash, rest ++ [key],
       used, cap⟩ acc := by
  conv_lhs => rw [FIFOReinsertion.freeAux]
  simp [hcond, hitem, hrm, hig, hhit]

theorem FIFOReinsertion.freeAux_step_evictR {K V : Type} [DecidableEq K]
    (fuel w : Nat) (ig : Option K) (hash : List (K × ReinsItem V)) (key : K)
    (rest : List K) (used cap : Nat) (acc : List K) (item : ReinsItem V)
    (hcond : cap < used + w) (hitem : lookupA key hash = some item)
    (hrm : item.removed = false) (hig : ¬some key = ig) (hhit : item.hit = false) :
    FIFOReinsertion.freeAux (fuel + 1) w ig ⟨hash, key :: rest, used, cap⟩ acc =
    FIFOReinsertion.freeAux fuel w ig
      ⟨eraseA key hash, rest, used - item.weight, cap⟩ (acc ++ [key]) := by
  conv_lhs => rw [FIFOReinsertion.freeAux]
  simp [hcond, hitem, hrm, hig, hhit]

theorem FIFOReinsertion.entryCost_le_two {K V : Type} [DecidableEq K]
    (c : FIFOReinsertion K V) (ig : Option K) (k : K) : c.entryCost ig k ≤ 2 := by
  unfold FIFOReinsertion.entryCost
  split
  · omega
  · split
    · split <;> omega
    · omega

theorem FIFOReinsertion.entryCost_pos {K V : Type} [DecidableEq K]
    (c : FIFOReinsertion K V) (ig : Option K) (k : K) (hig : ¬some k = ig) :
    1 ≤ c.entryCost ig k := by
  unfold FIFOReinsertion.entryCost
  rw [if_neg hig]
  split
  · split <;> omega
  · omega

theorem FIFOReinsertion.costSum_le {K V : Type} [DecidableEq K]
    (c : FIFOReinsertion K V) (ig : Option K) :
    c.costSum ig ≤ 2 * c.vec_deque.length := by
  unfold FIFOReinsertion.costSum
  induction c.vec_deque with
  | nil => simp
  | cons k rest ih =>
    simp only [List.map_cons, List.sum_cons, List.length_cons]
    have := FIFOReinsertion.entryCost_le_two c ig k
    omega

theorem FIFOReinsertion.entryCost_hash_eq {K V : Type} [DecidableEq K]
    (c c' : FIFOReinsertion K V) (ig : Option K) (j : K)
    (h : lookupA j c'.hash = lookupA j c.hash) :
    c'.entryCost ig j = c.entryCost ig j := by
  unfold FIFOReinsertion.entryCost
  rw [h]

theorem FIFOReinsertion.freeAux_specR {K V : Type} [DecidableEq K] (w : Nat)
    (ig : Option K) :
    ∀ (fuel : Nat) (c : FIFOReinsertion K V) (acc : List K),
      FIFOReinsertion.FreeInv c ig w → FIFOReinsertion.mu c ig ≤ fuel →
      ∃ acc₂ c₂, FIFOReinsertion.freeAux fuel w ig c acc = some (acc₂, c₂) ∧
        FIFOReinsertion.FreeInv c₂ ig w ∧ c₂.capacity = c.capacity ∧
        (∀ k, k ∈ keysA c₂.hash → k ∈ keysA c.hash) ∧
        c₂.used_capacity + w ≤ c₂.capacity := by
  intro fuel
  induction fuel with
  | zero =>
    intro c acc hInv hmu
    exfalso
    simp only [FIFOReinsertion.mu] at hmu
    omega
  | succ fuel ih =>
    intro c acc hInv hmu
    obtain ⟨hash, dq, used, cap⟩ := c
    simp only [FIFOReinsertion.FreeInv, FIFOReinsertion.sumW, FIFOReinsertion.mu,
      FIFOReinsertion.costSum] at hInv hmu
    obtain ⟨hndk, hnddq, hmem, hacct⟩ := hInv
    by_cases hcond : cap < used + w
    · cases dq with
      | nil =>
        exfalso
        have hkeys : keysA hash = [] := by
          by_contra h
          rcases List.exists_mem_of_ne_nil _ h with ⟨j, hj⟩
          exact absurd ((hmem j).mpr hj) (List.not_mem_nil j)
        have hh : hash = [] := (keysA_eq_nil_iff hash).mp hkeys
        subst hh
        rcases hacct with ⟨hig, hsum, hwcap⟩ | ⟨kg, it, hig, hlkg, hlive, hsum, hwle, hwcap⟩
        · simp only [sumByA, List.map_nil, List.sum_nil] at hsum
          omega
        · simp [lookupA] at hlkg
      | cons key rest =>
        have hkmem : key ∈ keysA hash := (hmem key).mp (List.mem_cons_self key rest)
        rcases Option.isSome_iff_exists.mp
          ((mem_keysA_iff_lookupA key hash).mp hkmem) with ⟨item, hitem⟩
        rcases List.nodup_cons.mp hnddq with ⟨hkrest, hndrest⟩
        have hsum_erase : sumByA (fun it => it.weight) (eraseA key hash) + item.weight =
            sumByA (fun it => it.weight) hash := sumByA_eraseA (fun it => it.weight) hitem
        have hw_le : item.weight ≤ sumByA (fun it => it.weight) hash :=
          lookupA_le_sumByA (fun it => it.weight) hitem
        have hmem' : ∀ k, k ∈ rest ↔ k ∈ keysA (eraseA key hash) := by
          intro k
          rw [keysA_eraseA]
          constructor
          · intro hk
            have hkne : k ≠ key := fun e => hkrest (e ▸ hk)
            exact (List.mem_erase_of_ne hkne).mpr ((hmem k).mp (List.mem_cons_of_mem _ hk))
          · intro hk
            rcases (List.Nodup.mem_erase_iff hndk).mp hk with ⟨hne, hmem2⟩
            rcases List.mem_cons.mp ((hmem k).mpr hmem2) with he | hr
            · exact absurd he hne
            · exact hr
        have hnd' : (keysA (eraseA key hash)).Nodup := by
          rw [keysA_eraseA]
          exact hndk.erase _
        -- the cost of the popped key in the current state
        have hcs_cons : ((key :: rest).map
            (FIFOReinsertion.entryCost ⟨hash, key :: rest, used, cap⟩ ig)).sum =
            FIFOReinsertion.entryCost ⟨hash, key :: rest, used, cap⟩ ig key +
            (rest.map (FIFOReinsertion.entryCost ⟨hash, key :: rest, used, cap⟩ ig)).sum := by
          simp
        have main_erase : ∀ acc' : List K, ¬some key = ig →
            ∃ acc₂ c₂,
              FIFOReinsertion.freeAux fuel w ig
                ⟨eraseA key hash, rest, used - item.weight, cap⟩ acc' =
                some (acc₂, c₂) ∧
              FIFOReinsertion.FreeInv c₂ ig w ∧ c₂.capacity = cap ∧
              (∀ k, k ∈ keysA c₂.hash → k ∈ keysA hash) ∧
              c₂.used_capacity + w ≤ c₂.capacity := by
          intro acc' hkig
          have hcost1 : 1 ≤ FIFOReinsertion.entryCost ⟨hash, key :: rest, used, cap⟩ ig key :=
            FIFOReinsertion.entryCost_pos _ ig key hkig
          have hmap : rest.map
              (FIFOReinsertion.entryCost ⟨eraseA key hash, rest, used - item.weight, cap⟩ ig) =
              rest.map (FIFOReinsertion.entryCost ⟨hash, key :: rest, used, cap⟩ ig) := by
            apply List.map_congr_left
            intro j hj
            apply FIFOReinsertion.entryCost_hash_eq
            show lookupA j (eraseA key hash) = lookupA j hash
            exact lookupA_eraseA_ne _ (fun e => hkrest (e ▸ hj))
          have hh1 := headIndF_le_one ig rest
          have hmu' : FIFOReinsertion.mu
              ⟨eraseA key hash, rest, used - item.weight, cap⟩ ig ≤ fuel := by
            simp only [FIFOReinsertion.mu, FIFOReinsertion.costSum]
            rw [hcs_cons] at hmu
            rw [hmap]
            omega
          have hacct' :
              (ig = none ∧ sumByA (fun it => it.weight) (eraseA key hash) =
                used - item.weight ∧ w ≤ cap) ∨
              (∃ kg it, ig = some kg ∧ lookupA kg (eraseA key hash) = some it ∧
                it.removed = false ∧
                sumByA (fun it => it.weight) (eraseA key hash) =
                  (used - item.weight) + w ∧ w ≤ it.weight ∧ it.weight ≤ cap) := by
            rcases hacct with ⟨hig, hsum, hwcap⟩ | ⟨kg, it, hig, hlkg, hlive, hsum, hwle, hwcap⟩
            · exact Or.inl ⟨hig, by omega, hwcap⟩
            · have hkkg : key ≠ kg := by
                intro e
                apply hkig
                rw [hig, e]
              have hpair : item.weight + it.weight ≤ sumByA (fun it => it.weight) hash :=
                lookupA_pair_le_sumByA (fun it => it.weight) hitem hlkg hkkg
              have hlkg' : lookupA kg (eraseA key hash) = some it := by
                rw [lookupA_eraseA_ne _ (Ne.symm hkkg)]
                exact hlkg
              exact Or.inr ⟨kg, it, hig, hlkg', hlive, by omega, hwle, hwcap⟩
          rcases ih ⟨eraseA key hash, rest, used - item.weight, cap⟩ acc'
            ⟨hnd', hndrest, hmem', hacct'⟩ hmu' with
            ⟨acc₂, c₂, heq, hInv₂, hcap₂, hsub₂, hle₂⟩
          refine ⟨acc₂, c₂, heq, hInv₂, hcap₂, ?_, hle₂⟩
          intro k hk
          have := hsub₂ k hk
          rw [keysA_eraseA] at this
          exact List.mem_of_mem_erase this
        by_cases hrm : item.removed
        · have hkig : ¬some key = ig := by
            rcases hacct with ⟨hig, _, _⟩ | ⟨kg, it, hig, hlkg, hlive, _, _, _⟩
            · rw [hig]
              simp
            · rw [hig]
              intro h
              have hkkg : key = kg := by injection h
              rw [hkkg, hlkg] at hitem
              have : it = item := by injection hitem
              rw [← this] at hrm
              rw [hlive] at hrm
              exact Bool.false_ne_true hrm
          rcases main_erase acc hkig with ⟨acc₂, c₂, heq, hInv₂, hcap₂, hsub₂, hle₂⟩
          refine ⟨acc₂, c₂, ?_, hInv₂, hcap₂, hsub₂, hle₂⟩
          rw [FIFOReinsertion.freeAux_step_removedR fuel w ig hash key rest used cap acc
            item hcond hitem hrm, heq]
        · have hrm' : item.removed = false := by
            cases h : item.removed
            · rfl
            · exact absurd h hrm
          by_cases hig2 : some key = ig
          · rcases hacct with ⟨hig, hsum, hwcap⟩ | ⟨kg, it, hig, hlkg, hlive, hsum, hwle, hwcap⟩
            · rw [hig] at hig2
              exact absurd hig2 (by simp)
            · have hkkg : key = kg := by
                rw [hig] at hig2
                injection hig2
              subst hkkg
              have hit_eq : item = it := by
                rw [hitem] at hlkg
                injection hlkg
              cases rest with
              | nil =>
                exfalso
                have huniq : ∀ j ∈ keysA hash, j = key := by
                  intro j hj
                  have := (hmem j).mpr hj
                  simpa using this
                have hsum_one : sumByA (fun it => it.weight) hash = item.weight :=
                  sumByA_eq_of_unique_key (fun it => it.weight) hndk huniq hitem
                rw [hit_eq] at hsum_one
                omega
              | cons r0 rs =>
                have hr0key : r0 ≠ key := by
                  intro e
                  exact hkrest (by rw [← e]; exact List.mem_cons_self r0 rs)
                have hnd2 : ((r0 :: rs) ++ [key]).Nodup :=
                  ((List.perm_append_singleton key (r0 :: rs)).nodup_iff).mpr hnddq
                have hmem2 : ∀ k, k ∈ (r0 :: rs) ++ [key] ↔ k ∈ keysA hash := by
                  intro k
                  rw [← hmem k]
                  simp only [List.mem_append, List.mem_cons, List.mem_singleton,
                    List.not_mem_nil, or_false]
                  tauto
                have hck0 : FIFOReinsertion.entryCost ⟨hash, key :: r0 :: rs, used, cap⟩
                    ig key = 0 := by
                  unfold FIFOReinsertion.entryCost
                  rw [if_pos hig2]
                have hmap : ((r0 :: rs) ++ [key]).map
                    (FIFOReinsertion.entryCost ⟨hash, (r0 :: rs) ++ [key], used, cap⟩ ig) =
                    ((r0 :: rs) ++ [key]).map
                    (FIFOReinsertion.entryCost ⟨hash, key :: r0 :: rs, used, cap⟩ ig) := by
                  apply List.map_congr_left
                  intro j hj
                  apply FIFOReinsertion.entryCost_hash_eq
                  rfl
                have hsum_append : (((r0 :: rs) ++ [key]).map
                    (FIFOReinsertion.entryCost ⟨hash, key :: r0 :: rs, used, cap⟩ ig)).sum =
                    ((r0 :: rs).map
                    (FIFOReinsertion.entryCost ⟨hash, key :: r0 :: rs, used, cap⟩ ig)).sum +
                    FIFOReinsertion.entryCost ⟨hash, key :: r0 :: rs, used, cap⟩ ig key := by
                  simp [Nat.add_assoc]
                have hhead1 : headIndF ig (key :: r0 :: rs) = 1 := by
                  simp only [headIndF]
                  rw [if_pos hig2]
                have hhead2 : headIndF ig ((r0 :: rs) ++ [key]) = 0 := by
                  simp only [List.cons_append, headIndF]
                  rw [if_neg]
                  intro h
                  rw [hig] at h
                  have e1 : r0 = key := by injection h
                  exact hr0key e1
                have hmu' : FIFOReinsertion.mu ⟨hash, (r0 :: rs) ++ [key], used, cap⟩ ig ≤
                    fuel := by
                  simp only [FIFOReinsertion.mu, FIFOReinsertion.costSum]
                  rw [hmap, hsum_append, hhead2, hck0]
                  rw [hcs_cons, hck0, hhead1] at hmu
                  omega
                rcases ih ⟨hash, (r0 :: rs) ++ [key], used, cap⟩ acc
                  ⟨hndk, hnd2, hmem2,
                   Or.inr ⟨key, it, hig, hlkg, hlive, hsum, hwle, hwcap⟩⟩ hmu' with
                  ⟨acc₂, c₂, heq, hInv₂, hcap₂, hsub₂, hle₂⟩
                refine ⟨acc₂, c₂, ?_, hInv₂, hcap₂, hsub₂, hle₂⟩
                rw [FIFOReinsertion.freeAux_step_rotateR fuel w ig hash key (r0 :: rs)
                  used cap acc item hcond hitem hrm' hig2, heq]
          · by_cases hhit : item.hit
            · -- hit: clear the bit and rotate to the tail
              have hmodlk : lookupA key
                  (modifyA key (fun it => { it with hit := false }) hash) =
                  some { item with hit := false } := by
                rw [lookupA_modifyA_self, hitem]
                rfl
              have hndmod : (keysA (modifyA key
                  (fun it => { it with hit := false }) hash)).Nodup := by
                rw [keysA_modifyA]
                exact hndk
              have hnd2 : ((rest ++ [key])).Nodup :=
                ((List.perm_append_singleton key rest).nodup_iff).mpr hnddq
              have hmemmod : ∀ k, k ∈ rest ++ [key] ↔ k ∈ keysA (modifyA key
                  (fun it => { it with hit := false }) hash) := by
                intro k
                rw [keysA_modifyA, ← hmem k]
                simp only [List.mem_append, List.mem_cons, List.mem_singleton,
                  List.not_mem_nil, or_false]
                tauto
              have hsummod : sumByA (fun it => it.weight) (modifyA key
                  (fun it => { it with hit := false }) hash) + item.weight =
                  sumByA (fun it => it.weight) hash + item.weight :=
                sumByA_modifyA (fun it => it.weight) _ hitem
              have hacct' :
                  (ig = none ∧ sumByA (fun it => it.weight) (modifyA key
                    (fun it => { it with hit := false }) hash) = used ∧ w ≤ cap) ∨
                  (∃ kg it, ig = some kg ∧ lookupA kg (modifyA key
                    (fun it => { it with hit := false }) hash) = some it ∧
                    it.removed = false ∧
                    sumByA (fun it => it.weight) (modifyA key
                      (fun it => { it with hit := false }) hash) = used + w ∧
                    w ≤ it.weight ∧ it.weight ≤ cap) := by
                rcases hacct with ⟨hig, hsum, hwcap⟩ | ⟨kg, it, hig, hlkg, hlive, hsum, hwle, hwcap⟩
                · exact Or.inl ⟨hig, by omega, hwcap⟩
                · have hkkg : key ≠ kg := by
                    intro e
                    apply hig2
                    rw [hig, e]
                  have hlkg' : lookupA kg (modifyA key
                      (fun it => { it with hit := false }) hash) = some it := by
                    rw [lookupA_modifyA_ne _ _ (Ne.symm hkkg)]
                    exact hlkg
                  exact Or.inr ⟨kg, it, hig, hlkg', hlive, by omega, hwle, hwcap⟩
              have hck2 : FIFOReinsertion.entryCost ⟨hash, key :: rest, used, cap⟩
                  ig key = 2 := by
                unfold FIFOReinsertion.entryCost
                rw [if_neg hig2]
                show (match lookupA key hash with
                  | some it => if it.hit then 2 else 1
                  | none => 1) = 2
                rw [hitem]
                simp [hhit]
              have hck1 : FIFOReinsertion.entryCost
                  ⟨modifyA key (fun it => { it with hit := false }) hash,
                   rest ++ [key], used, cap⟩ ig key = 1 := by
                unfold FIFOReinsertion.entryCost
                rw [if_neg hig2]
                show (match lookupA key (modifyA key
                    (fun it => { it with hit := false }) hash) with
                  | some it => if it.hit then 2 else 1
                  | none => 1) = 1
                rw [hmodlk]
                rfl
              have hmaprest : rest.map (FIFOReinsertion.entryCost
                  ⟨modifyA key (fun it => { it with hit := false }) hash,
                   rest ++ [key], used, cap⟩ ig) =
                  rest.map (FIFOReinsertion.entryCost ⟨hash, key :: rest, used, cap⟩ ig) := by
                apply List.map_congr_left
                intro j hj
                apply FIFOReinsertion.entryCost_hash_eq
                show lookupA j (modifyA key (fun it => { it with hit := false }) hash) =
                  lookupA j hash
                exact lookupA_modifyA_ne _ _ (fun e => hkrest (e ▸ hj))
              have hh2 := headIndF_le_one ig (rest ++ [key])
              have hmu' : FIFOReinsertion.mu
                  ⟨modifyA key (fun it => { it with hit := false }) hash,
                   rest ++ [key], used, cap⟩ ig ≤ fuel := by
                simp only [FIFOReinsertion.mu, FIFOReinsertion.costSum]
                rw [show (rest ++ [key]).map (FIFOReinsertion.entryCost
                    ⟨modifyA key (fun it => { it with hit := false }) hash,
                     rest ++ [key], used, cap⟩ ig) =
                  rest.map (FIFOReinsertion.entryCost
                    ⟨modifyA key (fun it => { it with hit := false }) hash,
                     rest ++ [key], used, cap⟩ ig) ++
                  [FIFOReinsertion.entryCost
                    ⟨modifyA key (fun it => { it with hit := false }) hash,
                     rest ++ [key], used, cap⟩ ig key] from by simp]
                rw [List.sum_append, hmaprest, hck1]
                simp only [List.sum_cons, List.sum_nil]
                rw [hcs_cons, hck2] at hmu
                omega
              rcases ih ⟨modifyA key (fun it => { it with hit := false }) hash,
                rest ++ [key], used, cap⟩ acc
                ⟨hndmod, hnd2, hmemmod, hacct'⟩ hmu' with
                ⟨acc₂, c₂, heq, hInv₂, hcap₂, hsub₂, hle₂⟩
              refine ⟨acc₂, c₂, ?_, hInv₂, hcap₂, ?_, hle₂⟩
              · rw [FIFOReinsertion.freeAux_step_hit fuel w ig hash key rest used cap acc
                  item hcond hitem hrm' hig2 hhit, heq]
              · intro k hk
                have := hsub₂ k hk
                rw [keysA_modifyA] at this
                exact this
            · have hhit' : item.hit = false := by
                cases hb : item.hit
                · rfl
                · exact absurd hb hhit
              rcases main_erase (acc ++ [key]) hig2 with
                ⟨acc₂, c₂, heq, hInv₂, hcap₂, hsub₂, hle₂⟩
              refine ⟨acc₂, c₂, ?_, hInv₂, hcap₂, hsub₂, hle₂⟩
              rw [FIFOReinsertion.freeAux_step_evictR fuel w ig hash key rest used cap acc
                item hcond hitem hrm' hig2 hhit', heq]
    · refine ⟨acc, ⟨hash, dq, used, cap⟩,
        FIFOReinsertion.freeAux_exitR (fuel + 1) w ig _ acc hcond, ?_, rfl,
        fun k hk => hk, ?_⟩
      · exact ⟨hndk, hnddq, hmem, hacct⟩
      · show used + w ≤ cap
        omega

theorem FIFOReinsertion.free_specR {K V : Type} [DecidableEq K]
    {c : FIFOReinsertion K V} {w : Nat} {ig : Option K}
    (hInv : FIFOReinsertion.FreeInv c ig w) :
    ∃ r c₂, c.free w ig = some (r, c₂) ∧ FIFOReinsertion.FreeInv c₂ ig w ∧
      c₂.capacity = c.capacity ∧ (∀ k, k ∈ keysA c₂.hash → k ∈ keysA c.hash) ∧
      c₂.used_capacity + w ≤ c₂.capacity := by
  have hmu : FIFOReinsertion.mu c ig ≤ 4 * c.vec_deque.length + 4 := by
    have h1 := FIFOReinsertion.costSum_le c ig
    have h2 := headIndF_le_one ig c.vec_deque
    simp only [FIFOReinsertion.mu]
    omega
  rcases FIFOReinsertion.freeAux_specR w ig (4 * c.vec_deque.length + 4) c [] hInv hmu with
    ⟨acc₂, c₂, heq, hInv₂, hcap₂, hsub₂, hle₂⟩
  refine ⟨if acc₂.isEmpty then none else some acc₂, c₂, ?_, hInv₂, hcap₂, hsub₂, hle₂⟩
  unfold FIFOReinsertion.free
  rw [heq]

theorem FIFOReinsertion.new_InvR {K V : Type} [DecidableEq K] (capacity : Nat) :
    FIFOReinsertion.Inv (FIFOReinsertion.new capacity : FIFOReinsertion K V) := by
  refine ⟨?_, ?_, ?_, ?_, ?_⟩ <;>
    simp [FIFOReinsertion.new, keysA, FIFOReinsertion.sumW, sumByA]

theorem FIFOReinsertion.put_InvR {K V : Type} [DecidableEq K]
    {c c' : FIFOReinsertion K V} {key : K} {v : V} {w : Nat}
    {r : Except FIFOReinsertionError (Option (List K))}
    (hInv : FIFOReinsertion.Inv c) (h : c.put key v w = some (r, c')) :
    FIFOReinsertion.Inv c' := by
  obtain ⟨hndk, hnddq, hmem, hsum, hcapb⟩ := hInv
  have hsumB : sumByA (fun it => it.weight) c.hash = c.used_capacity := hsum
  unfold FIFOReinsertion.put at h
  by_cases hcap : c.capacity < w
  · rw [if_pos hcap] at h
    simp only [Option.some.injEq, Prod.mk.injEq] at h
    rw [← h.2]
    exact ⟨hndk, hnddq, hmem, hsum, hcapb⟩
  · rw [if_neg hcap] at h
    by_cases hk : (lookupA key c.hash).isSome
    · rw [if_pos hk] at h
      rcases Option.isSome_iff_exists.mp hk with ⟨item, hitem⟩
      have hw_le : item.weight ≤ sumByA (fun it => it.weight) c.hash :=
        lookupA_le_sumByA (fun it => it.weight) hitem
      simp only [FIFOReinsertion.update, hitem] at h
      have hsummod : sumByA (fun it => it.weight)
          (modifyA key (fun it => { it with value := v, weight := w, removed := false }) c.hash) +
          item.weight = sumByA (fun it => it.weight) c.hash + w :=
        sumByA_modifyA (fun it => it.weight) _ hitem
      have hndk1 : (keysA (modifyA key
          (fun it => { it with value := v, weight := w, removed := false }) c.hash)).Nodup := by
        rw [keysA_modifyA]
        exact hndk
      have hmem1 : ∀ k, k ∈ c.vec_deque ↔ k ∈ keysA (modifyA key
          (fun it => { it with value := v, weight := w, removed := false }) c.hash) := by
        intro k
        rw [keysA_modifyA]
        exact hmem k
      by_cases hgrow : item.weight < w
      · rw [if_pos hgrow] at h
        have hFree : FIFOReinsertion.FreeInv
            ⟨modifyA key (fun it => { it with value := v, weight := w, removed := false }) c.hash,
             c.vec_deque, c.used_capacity, c.capacity⟩ (some key) (w - item.weight) := by
          refine ⟨hndk1, hnddq, hmem1,
            Or.inr ⟨key, { value := v, weight := w, hit := item.hit, removed := false },
              rfl, ?_, rfl, ?_, ?_, ?_⟩⟩
          · show lookupA key (modifyA key _ c.hash) = _
            rw [lookupA_modifyA_self, hitem]
            rfl
          · show sumByA (fun it => it.weight) (modifyA key
              (fun it => { it with value := v, weight := w, removed := false }) c.hash) =
              c.used_capacity + (w - item.weight)
            omega
          · show w - item.weight ≤ w
            omega
          · show w ≤ c.capacity
            omega
        rcases FIFOReinsertion.free_specR hFree with ⟨rk, c2, hfeq, hInv₂, hcap₂, hsub₂, hle₂⟩
        rw [hfeq] at h
        simp only [Option.some.injEq, Prod.mk.injEq] at h
        rw [← h.2]
        obtain ⟨hndk₂, hnddq₂, hmem₂, hacct₂⟩ := hInv₂
        rcases hacct₂ with ⟨hig, _, _⟩ | ⟨kg, it2, hig, hlkg₂, _, hsum₂, _, _⟩
        · exact absurd hig (by simp)
        · refine ⟨hndk₂, hnddq₂, hmem₂, ?_, ?_⟩
          · show FIFOReinsertion.sumW c2 = c2.used_capacity + (w - item.weight)
            exact hsum₂
          · show c2.used_capacity + (w - item.weight) ≤ c2.capacity
            omega
      · rw [if_neg hgrow] at h
        simp only [Option.some.injEq, Prod.mk.injEq] at h
        rw [← h.2]
        refine ⟨hndk1, hnddq, hmem1, ?_, ?_⟩
        · show sumByA (fun it => it.weight) (modifyA key
            (fun it => { it with value := v, weight := w, removed := false }) c.hash) =
            c.used_capacity - (item.weight - w)
          omega
        · show c.used_capacity - (item.weight - w) ≤ c.capacity
          omega
    · rw [if_neg hk] at h
      have hkn : lookupA key c.hash = none := by
        cases hl : lookupA key c.hash
        · rfl
        · rw [hl] at hk
          exact absurd rfl hk
      have hFree : FIFOReinsertion.FreeInv c none w :=
        ⟨hndk, hnddq, hmem, Or.inl ⟨rfl, hsum, by omega⟩⟩
      rcases FIFOReinsertion.free_specR hFree with ⟨rk, c1, hfeq, hInv₁, hcap₁, hsub₁, hle₁⟩
      simp only [FIFOReinsertion.insert] at h
      rw [hfeq] at h
      simp only [Option.some.injEq, Prod.mk.injEq] at h
      rw [← h.2]
      obtain ⟨hndk₁, hnddq₁, hmem₁, hacct₁⟩ := hInv₁
      have hsum₁ : FIFOReinsertion.sumW c1 = c1.used_capacity := by
        rcases hacct₁ with ⟨_, hs, _⟩ | ⟨kg, it2, hig, _, _, _, _, _⟩
        · exact hs
        · exact absurd hig (by simp)
      have hkeyout : key ∉ keysA c1.hash := by
        intro hmem2
        have := hsub₁ key hmem2
        rw [lookupA_eq_none_iff] at hkn
        exact hkn this
      have hkn₁ : lookupA key c1.hash = none := (lookupA_eq_none_iff key c1.hash).mpr hkeyout
      have hdqout : key ∉ c1.vec_deque := fun hd => hkeyout ((hmem₁ key).mp hd)
      have hkeysins : keysA (insertA key
          { value := v, weight := w, hit := false, removed := false } c1.hash) =
          key :: keysA c1.hash := by
        unfold insertA keysA
        rw [eraseA_eq_of_lookupA_none hkn₁]
        rfl
      refine ⟨?_, ?_, ?_, ?_, ?_⟩
      · show (keysA (insertA key _ c1.hash)).Nodup
        rw [hkeysins]
        exact List.nodup_cons.mpr ⟨hkeyout, hndk₁⟩
      · show (c1.vec_deque ++ [key]).Nodup
        exact ((List.perm_append_singleton key c1.vec_deque).nodup_iff).mpr
          (List.nodup_cons.mpr ⟨hdqout, hnddq₁⟩)
      · intro k
        show k ∈ c1.vec_deque ++ [key] ↔ k ∈ keysA (insertA key _ c1.hash)
        rw [hkeysins]
        simp only [List.mem_append, List.mem_cons, List.mem_singleton,
          List.not_mem_nil, or_false]
        rw [hmem₁ k]
        tauto
      · show sumByA (fun it => it.weight) (insertA key _ c1.hash) =
          c1.used_capacity + w
        unfold insertA
        rw [eraseA_eq_of_lookupA_none hkn₁]
        simp only [sumByA, List.map_cons, List.sum_cons]
        have : sumByA (fun it => it.weight) c1.hash = c1.used_capacity := hsum₁
        simp only [sumByA] at this
        omega
      · show c1.used_capacity + w ≤ c1.capacity
        exact hle₁

theorem FIFOReinsertion.get_InvR {K V : Type} [DecidableEq K]
    {c : FIFOReinsertion K V} (key : K) (hInv : FIFOReinsertion.Inv c) :
    FIFOReinsertion.Inv (c.get key).2 := by
  obtain ⟨hndk, hnddq, hmem, hsum, hcapb⟩ := hInv
  unfold FIFOReinsertion.get
  cases hitem : lookupA key c.hash with
  | none => exact ⟨hndk, hnddq, hmem, hsum, hcapb⟩
  | some item =>
    by_cases hrm : item.removed
    · simp only [hrm, if_true]
      exact ⟨hndk, hnddq, hmem, hsum, hcapb⟩
    · have hrm' : item.removed = false := by
        cases hb : item.removed
        · rfl
        · exact absurd hb hrm
      simp only [hrm', Bool.false_eq_true, if_false]
      have hmod : sumByA (fun it => it.weight)
          (modifyA key (fun it => { it with hit := true }) c.hash) + item.weight =
          sumByA (fun it => it.weight) c.hash + item.weight :=
        sumByA_modifyA (fun it => it.weight) _ hitem
      refine ⟨?_, hnddq, ?_, ?_, hcapb⟩
      · show (keysA (modifyA key _ c.hash)).Nodup
        rw [keysA_modifyA]
        exact hndk
      · intro k
        show k ∈ c.vec_deque ↔ k ∈ keysA (modifyA key _ c.hash)
        rw [keysA_modifyA]
        exact hmem k
      · show sumByA (fun it => it.weight)
          (modifyA key (fun it => { it with hit := true }) c.hash) = c.used_capacity
        have : sumByA (fun it => it.weight) c.hash = c.used_capacity := hsum
        omega

theorem FIFOReinsertion.remove_InvR {K V : Type} [DecidableEq K]
    {c : FIFOReinsertion K V} (key : K) (hInv : FIFOReinsertion.Inv c) :
    FIFOReinsertion.Inv (c.remove key) := by
  obtain ⟨hndk, hnddq, hmem, hsum, hcapb⟩ := hInv
  unfold FIFOReinsertion.remove
  cases hitem : lookupA key c.hash with
  | none =>
    rw [modifyA_eq_of_lookupA_none _ hitem]
    exact ⟨hndk, hnddq, hmem, hsum, hcapb⟩
  | some item =>
    have hmod : sumByA (fun it => it.weight)
        (modifyA key (fun it => { it with removed := true }) c.hash) + item.weight =
        sumByA (fun it => it.weight) c.hash + item.weight :=
      sumByA_modifyA (fun it => it.weight) _ hitem
    refine ⟨?_, hnddq, ?_, ?_, hcapb⟩
    · show (keysA (modifyA key _ c.hash)).Nodup
      rw [keysA_modifyA]
      exact hndk
    · intro k
      show k ∈ c.vec_deque ↔ k ∈ keysA (modifyA key _ c.hash)
      rw [keysA_modifyA]
      exact hmem k
    · show sumByA (fun it => it.weight)
        (modifyA key (fun it => { it with removed := true }) c.hash) = c.used_capacity
      have : sumByA (fun it => it.weight) c.hash = c.used_capacity := hsum
      omega

theorem FIFOReinsertion.reachable_InvR {K V : Type} [DecidableEq K]
    {c : FIFOReinsertion K V} (h : FIFOReinsertion.Reachable c) :
    FIFOReinsertion.Inv c := by
  induction h with
  | new capacity => exact FIFOReinsertion.new_InvR capacity
  | put _ hput ih => exact FIFOReinsertion.put_InvR ih hput
  | get _ ih => exact FIFOReinsertion.get_InvR _ ih
  | remove _ ih => exact FIFOReinsertion.remove_InvR _ ih

/-! ## The eviction loop of `GhostFIFO`: step lemmas and specification -/

theorem GhostFIFO.freeAux_exitG {K : Type} [DecidableEq K] (fuel w : Nat)
    (ig : Option K) (c : GhostFIFO K) (acc : List K)
    (hcond : ¬c.capacity < c.used_capacity + w) :
    GhostFIFO.freeAux fuel w ig c acc = some (acc, c) := by
  cases fuel <;> simp [GhostFIFO.freeAux, hcond]

theorem GhostFIFO.freeAux_step_removedG {K : Type} [DecidableEq K] (fuel w : Nat)
    (ig : Option K) (hash : List (K × GhostItem)) (key : K) (rest : List K)
    (used cap : Nat) (acc : List K) (item : GhostItem)
    (hcond : cap < used + w) (hitem : lookupA key hash = some item)
    (hrm : item.removed = true) :
    GhostFIFO.freeAux (fuel + 1) w ig ⟨hash, key :: rest, used, cap⟩ acc =
    GhostFIFO.freeAux fuel w ig ⟨eraseA key hash, rest, used - item.weight, cap⟩ acc := by
  conv_lhs => rw [GhostFIFO.freeAux]
  simp [hcond, hitem, hrm]

theorem GhostFIFO.freeAux_step_rotateG {K : Type} [DecidableEq K] (fuel w : Nat)
    (ig : Option K) (hash : List (K × GhostItem)) (key : K) (rest : List K)
    (used cap : Nat) (acc : List K) (item : GhostItem)
    (hcond : cap < used + w) (hitem : lookupA key hash = some item)
    (hrm : item.removed = false) (hig : some key = ig) :
    GhostFIFO.freeAux (fuel + 1) w ig ⟨hash, key :: rest, used, cap⟩ acc =
    GhostFIFO.freeAux fuel w ig ⟨hash, rest ++ [key], used, cap⟩ acc := by
  conv_lhs => rw [GhostFIFO.freeAux]
  simp [hcond, hitem, hrm, hig]

theorem GhostFIFO.freeAux_step_evictG {K : Type} [DecidableEq K] (fuel w : Nat)
    (ig : Option K) (hash : List (K × GhostItem)) (key : K) (rest : List K)
    (used cap : Nat) (acc : List K) (item : GhostItem)
    (hcond : cap < used + w) (hitem : lookupA key hash = some item)
    (hrm : item.removed = false) (hig : ¬some key = ig) :
    GhostFIFO.freeAux (fuel + 1) w ig ⟨hash, key :: rest, used, cap⟩ acc =
    GhostFIFO.freeAux fuel w ig ⟨eraseA key hash, rest, used - item.weight, cap⟩
      (acc ++ [key]) := by
  conv_lhs => rw [GhostFIFO.freeAux]
  simp [hcond, hitem, hrm, hig]

theorem GhostFIFO.freeAux_specG {K : Type} [DecidableEq K] (w : Nat) (ig : Option K) :
    ∀ (fuel : Nat) (c : GhostFIFO K) (acc : List K),
      GhostFIFO.FreeInv c ig w → GhostFIFO.mu c ig ≤ fuel →
      ∃ acc₂ c₂, GhostFIFO.freeAux fuel w ig c acc = some (acc₂, c₂) ∧
        GhostFIFO.FreeInv c₂ ig w ∧ c₂.capacity = c.capacity ∧
        (∀ k, k ∈ keysA c₂.hash → k ∈ keysA c.hash) ∧
        c₂.used_capacity + w ≤ c₂.capacity := by
  intro fuel
  induction fuel with
  | zero =>
    intro c acc hInv hmu
    exfalso
    simp only [GhostFIFO.mu] at hmu
    omega
  | succ fuel ih =>
    intro c acc hInv hmu
    obtain ⟨hash, dq, used, cap⟩ := c
    simp only [GhostFIFO.FreeInv, GhostFIFO.sumW, GhostFIFO.mu] at hInv hmu
    obtain ⟨hndk, hnddq, hmem, hacct⟩ := hInv
    by_cases hcond : cap < used + w
    · cases dq with
      | nil =>
        exfalso
        have hkeys : keysA hash = [] := by
          by_contra h
          rcases List.exists_mem_of_ne_nil _ h with ⟨j, hj⟩
          exact absurd ((hmem j).mpr hj) (List.not_mem_nil j)
        have hh : hash = [] := (keysA_eq_nil_iff hash).mp hkeys
        subst hh
        rcases hacct with ⟨hig, hsum, hwcap⟩ | ⟨kg, it, hig, hlkg, hlive, hsum, hwle, hwcap⟩
        · simp only [sumByA, List.map_nil, List.sum_nil] at hsum
          omega
        · simp [lookupA] at hlkg
      | cons key rest =>
        have hkmem : key ∈ keysA hash := (hmem key).mp (List.mem_cons_self key rest)
        rcases Option.isSome_iff_exists.mp
          ((mem_keysA_iff_lookupA key hash).mp hkmem) with ⟨item, hitem⟩
        rcases List.nodup_cons.mp hnddq with ⟨hkrest, hndrest⟩
        have hsum_erase : sumByA (fun it => it.weight) (eraseA key hash) + item.weight =
            sumByA (fun it => it.weight) hash := sumByA_eraseA (fun it => it.weight) hitem
        have hw_le : item.weight ≤ sumByA (fun it => it.weight) hash :=
          lookupA_le_sumByA (fun it => it.weight) hitem
        have hmem' : ∀ k, k ∈ rest ↔ k ∈ keysA (eraseA key hash) := by
          intro k
          rw [keysA_eraseA]
          constructor
          · intro hk
            have hkne : k ≠ key := fun e => hkrest (e ▸ hk)
            exact (List.mem_erase_of_ne hkne).mpr ((hmem k).mp (List.mem_cons_of_mem _ hk))
          · intro hk
            rcases (List.Nodup.mem_erase_iff hndk).mp hk with ⟨hne, hmem2⟩
            rcases List.mem_cons.mp ((hmem k).mpr hmem2) with he | hr
            · exact absurd he hne
            · exact hr
        have hnd' : (keysA (eraseA key hash)).Nodup := by
          rw [keysA_eraseA]
          exact hndk.erase _
        have main_erase : ∀ acc' : List K, ¬some key = ig →
            ∃ acc₂ c₂,
              GhostFIFO.freeAux fuel w ig
                ⟨eraseA key hash, rest, used - item.weight, cap⟩ acc' =
                some (acc₂, c₂) ∧
              GhostFIFO.FreeInv c₂ ig w ∧ c₂.capacity = cap ∧
              (∀ k, k ∈ keysA c₂.hash → k ∈ keysA hash) ∧
              c₂.used_capacity + w ≤ c₂.capacity := by
          intro acc' hkig
          have hcost : costSumF ig (key :: rest) = 1 + costSumF ig rest := by
            rw [costSumF_cons]
            congr 1
            unfold igCost
            rw [if_neg hkig]
          have hh1 := headIndF_le_one ig rest
          have hmu' : GhostFIFO.mu ⟨eraseA key hash, rest, used - item.weight, cap⟩ ig ≤
              fuel := by
            simp only [GhostFIFO.mu]
            rw [hcost] at hmu
            omega
          have hacct' :
              (ig = none ∧ sumByA (fun it => it.weight) (eraseA key hash) =
                used - item.weight ∧ w ≤ cap) ∨
              (∃ kg it, ig = some kg ∧ lookupA kg (eraseA key hash) = some it ∧
                it.removed = false ∧
                sumByA (fun it => it.weight) (eraseA key hash) =
                  (used - item.weight) + w ∧ w ≤ it.weight ∧ it.weight ≤ cap) := by
            rcases hacct with ⟨hig, hsum, hwcap⟩ | ⟨kg, it, hig, hlkg, hlive, hsum, hwle, hwcap⟩
            · exact Or.inl ⟨hig, by omega, hwcap⟩
            · have hkkg : key ≠ kg := by
                intro e
                apply hkig
                rw [hig, e]
              have hpair : item.weight + it.weight ≤ sumByA (fun it => it.weight) hash :=
                lookupA_pair_le_sumByA (fun it => it.weight) hitem hlkg hkkg
              have hlkg' : lookupA kg (eraseA key hash) = some it := by
                rw [lookupA_eraseA_ne _ (Ne.symm hkkg)]
                exact hlkg
              exact Or.inr ⟨kg, it, hig, hlkg', hlive, by omega, hwle, hwcap⟩
          rcases ih ⟨eraseA key hash, rest, used - item.weight, cap⟩ acc'
            ⟨hnd', hndrest, hmem', hacct'⟩ hmu' with
            ⟨acc₂, c₂, heq, hInv₂, hcap₂, hsub₂, hle₂⟩
          refine ⟨acc₂, c₂, heq, hInv₂, hcap₂, ?_, hle₂⟩
          intro k hk
          have := hsub₂ k hk
          rw [keysA_eraseA] at this
          exact List.mem_of_mem_erase this
        by_cases hrm : item.removed
        · have hkig : ¬some key = ig := by
            rcases hacct with ⟨hig, _, _⟩ | ⟨kg, it, hig, hlkg, hlive, _, _, _⟩
            · rw [hig]
              simp
            · rw [hig]
              intro h
              have hkkg : key = kg := by injection h
              rw [hkkg, hlkg] at hitem
              have : it = item := by injection hitem
              rw [← this] at hrm
              rw [hlive] at hrm
              exact Bool.false_ne_true hrm
          rcases main_erase acc hkig with ⟨acc₂, c₂, heq, hInv₂, hcap₂, hsub₂, hle₂⟩
          refine ⟨acc₂, c₂, ?_, hInv₂, hcap₂, hsub₂, hle₂⟩
          rw [GhostFIFO.freeAux_step_removedG fuel w ig hash key rest used cap acc item
            hcond hitem hrm, heq]
        · have hrm' : item.removed = false := by
            cases h : item.removed
            · rfl
            · exact absurd h hrm
          by_cases hig2 : some key = ig
          · rcases hacct with ⟨hig, hsum, hwcap⟩ | ⟨kg, it, hig, hlkg, hlive, hsum, hwle, hwcap⟩
            · rw [hig] at hig2
              exact absurd hig2 (by simp)
            · have hkkg : key = kg := by
                rw [hig] at hig2
                injection hig2
              subst hkkg
              have hit_eq : item = it := by
                rw [hitem] at hlkg
                injection hlkg
              cases rest with
              | nil =>
                exfalso
                have huniq : ∀ j ∈ keysA hash, j = key := by
                  intro j hj
                  have := (hmem j).mpr hj
                  simpa using this
                have hsum_one : sumByA (fun it => it.weight) hash = item.weight :=
                  sumByA_eq_of_unique_key (fun it => it.weight) hndk huniq hitem
                rw [hit_eq] at hsum_one
                omega
              | cons r0 rs =>
                have hr0key : r0 ≠ key := by
                  intro e
                  exact hkrest (by rw [← e]; exact List.mem_cons_self r0 rs)
                have hnd2 : ((r0 :: rs) ++ [key]).Nodup :=
                  ((List.perm_append_singleton key (r0 :: rs)).nodup_iff).mpr hnddq
                have hmem2 : ∀ k, k ∈ (r0 :: rs) ++ [key] ↔ k ∈ keysA hash := by
                  intro k
                  rw [← hmem k]
                  simp only [List.mem_append, List.mem_cons, List.mem_singleton,
                    List.not_mem_nil, or_false]
                  tauto
                have hck0 : igCost ig key = 0 := by
                  unfold igCost
                  rw [if_pos hig2]
                have hcost : costSumF ig (key :: r0 :: rs) = costSumF ig (r0 :: rs) := by
                  rw [costSumF_cons, hck0]
                  omega
                have hcost2 : costSumF ig ((r0 :: rs) ++ [key]) = costSumF ig (r0 :: rs) := by
                  rw [costSumF_append_singleton, hck0]
                  omega
                have hhead1 : headIndF ig (key :: r0 :: rs) = 1 := by
                  simp only [headIndF]
                  rw [if_pos hig2]
                have hhead2 : headIndF ig ((r0 :: rs) ++ [key]) = 0 := by
                  simp only [List.cons_append, headIndF]
                  rw [if_neg]
                  intro h
                  rw [hig] at h
                  have e1 : r0 = key := by injection h
                  exact hr0key e1
                have hmu' : GhostFIFO.mu ⟨hash, (r0 :: rs) ++ [key], used, cap⟩ ig ≤
                    fuel := by
                  simp only [GhostFIFO.mu, hcost2, hhead2]
                  rw [hcost, hhead1] at hmu
                  omega
                rcases ih ⟨hash, (r0 :: rs) ++ [key], used, cap⟩ acc
                  ⟨hndk, hnd2, hmem2,
                   Or.inr ⟨key, it, hig, hlkg, hlive, hsum, hwle, hwcap⟩⟩ hmu' with
                  ⟨acc₂, c₂, heq, hInv₂, hcap₂, hsub₂, hle₂⟩
                refine ⟨acc₂, c₂, ?_, hInv₂, hcap₂, hsub₂, hle₂⟩
                rw [GhostFIFO.freeAux_step_rotateG fuel w ig hash key (r0 :: rs) used cap
                  acc item hcond hitem hrm' hig2, heq]
          · rcases main_erase (acc ++ [key]) hig2 with
              ⟨acc₂, c₂, heq, hInv₂, hcap₂, hsub₂, hle₂⟩
            refine ⟨acc₂, c₂, ?_, hInv₂, hcap₂, hsub₂, hle₂⟩
            rw [GhostFIFO.freeAux_step_evictG fuel w ig hash key rest used cap acc item
              hcond hitem hrm' hig2, heq]
    · refine ⟨acc, ⟨hash, dq, used, cap⟩,
        GhostFIFO.freeAux_exitG (fuel + 1) w ig _ acc hcond, ?_, rfl, fun k hk => hk, ?_⟩
      · exact ⟨hndk, hnddq, hmem, hacct⟩
      · show used + w ≤ cap
        omega

theorem GhostFIFO.free_specG {K : Type} [DecidableEq K] {c : GhostFIFO K} {w : Nat}
    {ig : Option K} (hInv : GhostFIFO.FreeInv c ig w) :
    ∃ r c₂, c.free w ig = some (r, c₂) ∧ GhostFIFO.FreeInv c₂ ig w ∧
      c₂.capacity = c.capacity ∧ (∀ k, k ∈ keysA c₂.hash → k ∈ keysA c.hash) ∧
      c₂.used_capacity + w ≤ c₂.capacity := by
  have hmu : GhostFIFO.mu c ig ≤ 4 * c.vec_deque.length + 4 := by
    have h1 := costSumF_le_length ig c.vec_deque
    have h2 := headIndF_le_one ig c.vec_deque
    simp only [GhostFIFO.mu]
    omega
  rcases GhostFIFO.freeAux_specG w ig (4 * c.vec_deque.length + 4) c [] hInv hmu with
    ⟨acc₂, c₂, heq, hInv₂, hcap₂, hsub₂, hle₂⟩
  refine ⟨if acc₂.isEmpty then none else some acc₂, c₂, ?_, hInv₂, hcap₂, hsub₂, hle₂⟩
  unfold GhostFIFO.free
  rw [heq]

theorem GhostFIFO.new_InvG {K : Type} [DecidableEq K] (capacity : Nat) :
    GhostFIFO.Inv (GhostFIFO.new capacity : GhostFIFO K) := by
  refine ⟨?_, ?_, ?_, ?_, ?_⟩ <;>
    simp [GhostFIFO.new, keysA, GhostFIFO.sumW, sumByA]

theorem GhostFIFO.put_InvG {K : Type} [DecidableEq K] {c c' : GhostFIFO K} {key : K}
    {w : Nat} {r : Except GhostFIFOError (Option (List K))}
    (hInv : GhostFIFO.Inv c) (h : c.put key w = some (r, c')) : GhostFIFO.Inv c' := by
  obtain ⟨hndk, hnddq, hmem, hsum, hcapb⟩ := hInv
  have hsumB : sumByA (fun it => it.weight) c.hash = c.used_capacity := hsum
  unfold GhostFIFO.put at h
  by_cases hcap : c.capacity < w
  · rw [if_pos hcap] at h
    simp only [Option.some.injEq, Prod.mk.injEq] at h
    rw [← h.2]
    exact ⟨hndk, hnddq, hmem, hsum, hcapb⟩
  · rw [if_neg hcap] at h
    by_cases hk : (lookupA key c.hash).isSome
    · rw [if_pos hk] at h
      rcases Option.isSome_iff_exists.mp hk with ⟨item, hitem⟩
      have hw_le : item.weight ≤ sumByA (fun it => it.weight) c.hash :=
        lookupA_le_sumByA (fun it => it.weight) hitem
      simp only [GhostFIFO.update, hitem] at h
      have hsummod : sumByA (fun it => it.weight)
          (modifyA key (fun it => { it with weight := w, removed := false }) c.hash) +
          item.weight = sumByA (fun it => it.weight) c.hash + w :=
        sumByA_modifyA (fun it => it.weight) _ hitem
      have hndk1 : (keysA (modifyA key
          (fun it => { it with weight := w, removed := false }) c.hash)).Nodup := by
        rw [keysA_modifyA]
        exact hndk
      have hmem1 : ∀ k, k ∈ c.vec_deque ↔ k ∈ keysA (modifyA key
          (fun it => { it with weight := w, removed := false }) c.hash) := by
        intro k
        rw [keysA_modifyA]
        exact hmem k
      by_cases hgrow : item.weight < w
      · rw [if_pos hgrow] at h
        have hFree : GhostFIFO.FreeInv
            ⟨modifyA key (fun it => { it with weight := w, removed := false }) c.hash,
             c.vec_deque, c.used_capacity, c.capacity⟩ (some key) (w - item.weight) := by
          refine ⟨hndk1, hnddq, hmem1,
            Or.inr ⟨key, { weight := w, removed := false }, rfl, ?_, rfl, ?_, ?_, ?_⟩⟩
          · show lookupA key (modifyA key _ c.hash) = _
            rw [lookupA_modifyA_self, hitem]
            rfl
          · show sumByA (fun it => it.weight) (modifyA key
              (fun it => { it with weight := w, removed := false }) c.hash) =
              c.used_capacity + (w - item.weight)
            omega
          · show w - item.weight ≤ w
            omega
          · show w ≤ c.capacity
            omega
        rcases GhostFIFO.free_specG hFree with ⟨rk, c2, hfeq, hInv₂, hcap₂, hsub₂, hle₂⟩
        rw [hfeq] at h
        simp only [Option.some.injEq, Prod.mk.injEq] at h
        rw [← h.2]
        obtain ⟨hndk₂, hnddq₂, hmem₂, hacct₂⟩ := hInv₂
        rcases hacct₂ with ⟨hig, _, _⟩ | ⟨kg, it2, hig, hlkg₂, _, hsum₂, _, _⟩
        · exact absurd hig (by simp)
        · refine ⟨hndk₂, hnddq₂, hmem₂, ?_, ?_⟩
          · show GhostFIFO.sumW c2 = c2.used_capacity + (w - item.weight)
            exact hsum₂
          · show c2.used_capacity + (w - item.weight) ≤ c2.capacity
            omega
      · rw [if_neg hgrow] at h
        simp only [Option.some.injEq, Prod.mk.injEq] at h
        rw [← h.2]
        refine ⟨hndk1, hnddq, hmem1, ?_, ?_⟩
        · show sumByA (fun it => it.weight) (modifyA key
            (fun it => { it with weight := w, removed := false }) c.hash) =
            c.used_capacity - (item.weight - w)
          omega
        · show c.used_capacity - (item.weight - w) ≤ c.capacity
          omega
    · rw [if_neg hk] at h
      have hkn : lookupA key c.hash = none := by
        cases hl : lookupA key c.hash
        · rfl
        · rw [hl] at hk
          exact absurd rfl hk
      have hFree : GhostFIFO.FreeInv c none w :=
        ⟨hndk, hnddq, hmem, Or.inl ⟨rfl, hsum, by omega⟩⟩
      rcases GhostFIFO.free_specG hFree with ⟨rk, c1, hfeq, hInv₁, hcap₁, hsub₁, hle₁⟩
      simp only [GhostFIFO.insert] at h
      rw [hfeq] at h
      simp only [Option.some.injEq, Prod.mk.injEq] at h
      rw [← h.2]
      obtain ⟨hndk₁, hnddq₁, hmem₁, hacct₁⟩ := hInv₁
      have hsum₁ : GhostFIFO.sumW c1 = c1.used_capacity := by
        rcases hacct₁ with ⟨_, hs, _⟩ | ⟨kg, it2, hig, _, _, _, _, _⟩
        · exact hs
        · exact absurd hig (by simp)
      have hkeyout : key ∉ keysA c1.hash := by
        intro hmem2
        have := hsub₁ key hmem2
        rw [lookupA_eq_none_iff] at hkn
        exact hkn this
      have hkn₁ : lookupA key c1.hash = none := (lookupA_eq_none_iff key c1.hash).mpr hkeyout
      have hdqout : key ∉ c1.vec_deque := fun hd => hkeyout ((hmem₁ key).mp hd)
      have hkeysins : keysA (insertA key { weight := w, removed := false } c1.hash) =
          key :: keysA c1.hash := by
        unfold insertA keysA
        rw [eraseA_eq_of_lookupA_none hkn₁]
        rfl
      refine ⟨?_, ?_, ?_, ?_, ?_⟩
      · show (keysA (insertA key _ c1.hash)).Nodup
        rw [hkeysins]
        exact List.nodup_cons.mpr ⟨hkeyout, hndk₁⟩
      · show (c1.vec_deque ++ [key]).Nodup
        exact ((List.perm_append_singleton key c1.vec_deque).nodup_iff).mpr
          (List.nodup_cons.mpr ⟨hdqout, hnddq₁⟩)
      · intro k
        show k ∈ c1.vec_deque ++ [key] ↔ k ∈ keysA (insertA key _ c1.hash)
        rw [hkeysins]
        simp only [List.mem_append, List.mem_cons, List.mem_singleton,
          List.not_mem_nil, or_false]
        rw [hmem₁ k]
        tauto
      · show sumByA (fun it => it.weight) (insertA key _ c1.hash) =
          c1.used_capacity + w
        unfold insertA
        rw [eraseA_eq_of_lookupA_none hkn₁]
        simp only [sumByA, List.map_cons, List.sum_cons]
        have : sumByA (fun it => it.weight) c1.hash = c1.used_capacity := hsum₁
        simp only [sumByA] at this
        omega
      · show c1.used_capacity + w ≤ c1.capacity
        exact hle₁

theorem GhostFIFO.get_InvG {K : Type} [DecidableEq K] {c : GhostFIFO K} (key : K)
    (hInv : GhostFIFO.Inv c) : GhostFIFO.Inv (c.get key).2 := by
  obtain ⟨hndk, hnddq, hmem, hsum, hcapb⟩ := hInv
  unfold GhostFIFO.get
  cases hitem : lookupA key c.hash with
  | none => exact ⟨hndk, hnddq, hmem, hsum, hcapb⟩
  | some item => exact ⟨hndk, hnddq, hmem, hsum, hcapb⟩

theorem GhostFIFO.remove_InvG {K : Type} [DecidableEq K] {c : GhostFIFO K} (key : K)
    (hInv : GhostFIFO.Inv c) : GhostFIFO.Inv (c.remove key) := by
  obtain ⟨hndk, hnddq, hmem, hsum, hcapb⟩ := hInv
  unfold GhostFIFO.remove
  cases hitem : lookupA key c.hash with
  | none =>
    rw [modifyA_eq_of_lookupA_none _ hitem]
    exact ⟨hndk, hnddq, hmem, hsum, hcapb⟩
  | some item =>
    have hmod : sumByA (fun it => it.weight)
        (modifyA key (fun it => { it with removed := true }) c.hash) + item.weight =
        sumByA (fun it => it.weight) c.hash + item.weight :=
      sumByA_modifyA (fun it => it.weight) _ hitem
    refine ⟨?_, hnddq, ?_, ?_, hcapb⟩
    · show (keysA (modifyA key _ c.hash)).Nodup
      rw [keysA_modifyA]
      exact hndk
    · intro k
      show k ∈ c.vec_deque ↔ k ∈ keysA (modifyA key _ c.hash)
      rw [keysA_modifyA]
      exact hmem k
    · show sumByA (fun it => it.weight)
        (modifyA key (fun it => { it with removed := true }) c.hash) = c.used_capacity
      have : sumByA (fun it => it.weight) c.hash = c.used_capacity := hsum
      omega

theorem GhostFIFO.reachable_InvG {K : Type} [DecidableEq K] {c : GhostFIFO K}
    (h : GhostFIFO.Reachable c) : GhostFIFO.Inv c := by
  induction h with
  | new capacity => exact GhostFIFO.new_InvG capacity
  | put _ hput ih => exact GhostFIFO.put_InvG ih hput
  | get _ ih => exact GhostFIFO.get_InvG _ ih
  | remove _ ih => exact GhostFIFO.remove_InvG _ ih

/-! ## Claim theorems: invariants and the eviction loop -/

/-- Claim C3: for each of the three queues, `used_capacity ≤ capacity` holds
after every completed public operation, along every call sequence starting
from a newly constructed queue (the `Reachable` predicates close `new` under
completed `put`, `get` and `remove`). -/
theorem c3_used_le_capacity :
    (∀ (K V : Type) [DecidableEq K] (c : FIFO K V),
      FIFO.Reachable c → c.used_capacity ≤ c.capacity) ∧
    (∀ (K V : Type) [DecidableEq K] (c : FIFOReinsertion K V),
      FIFOReinsertion.Reachable c → c.used_capacity ≤ c.capacity) ∧
    (∀ (K : Type) [DecidableEq K] (c : GhostFIFO K),
      GhostFIFO.Reachable c → c.used_capacity ≤ c.capacity) := by
  refine ⟨?_, ?_, ?_⟩
  · intro K V _ c h
    exact (FIFO.reachable_InvF h).2.2.2.2
  · intro K V _ c h
    exact (FIFOReinsertion.reachable_InvR h).2.2.2.2
  · intro K _ c h
    exact (GhostFIFO.reachable_InvG h).2.2.2.2

/-- Closed witness for `c3_used_le_capacity`: a freshly built queue and a
queue after one completed `put` satisfy the bound; the reachability
hypotheses are discharged by explicit derivations. -/
theorem c3_used_le_capacity_witness :
    ((⟨[(1, { value := 1, weight := 2, freq := 0, removed := false })], [1], 2, 10⟩ :
        FIFO Nat Nat).used_capacity ≤
      (⟨[(1, { value := 1, weight := 2, freq := 0, removed := false })], [1], 2, 10⟩ :
        FIFO Nat Nat).capacity) ∧
    ((FIFOReinsertion.new 7 : FIFOReinsertion Nat Nat).used_capacity ≤
      (FIFOReinsertion.new 7 : FIFOReinsertion Nat Nat).capacity) ∧
    ((GhostFIFO.new 7 : GhostFIFO Nat).used_capacity ≤
      (GhostFIFO.new 7 : GhostFIFO Nat).capacity) :=
  ⟨c3_used_le_capacity.1 Nat Nat _
    (FIFO.Reachable.put (FIFO.Reachable.new 10)
      (show (FIFO.new 10 : FIFO Nat Nat).put 1 1 2 = some (Except.ok none,
        ⟨[(1, { value := 1, weight := 2, freq := 0, removed := false })], [1], 2, 10⟩)
       from rfl)),
   c3_used_le_capacity.2.1 Nat Nat _ (FIFOReinsertion.Reachable.new 7),
   c3_used_le_capacity.2.2 Nat _ (GhostFIFO.Reachable.new 7)⟩

/-- Claim C4: for each of the three queues, after any completed public
operation `used_capacity` equals the sum of the `weight` fields over all map
entries, tombstoned (logically removed but unreaped) entries included —
`sumW` sums over the entire map. -/
theorem c4_used_eq_weight_sum :
    (∀ (K V : Type) [DecidableEq K] (c : FIFO K V),
      FIFO.Reachable c → c.used_capacity = FIFO.sumW c) ∧
    (∀ (K V : Type) [DecidableEq K] (c : FIFOReinsertion K V),
      FIFOReinsertion.Reachable c → c.used_capacity = FIFOReinsertion.sumW c) ∧
    (∀ (K : Type) [DecidableEq K] (c : GhostFIFO K),
      GhostFIFO.Reachable c → c.used_capacity = GhostFIFO.sumW c) := by
  refine ⟨?_, ?_, ?_⟩
  · intro K V _ c h
    exact ((FIFO.reachable_InvF h).2.2.2.1).symm
  · intro K V _ c h
    exact ((FIFOReinsertion.reachable_InvR h).2.2.2.1).symm
  · intro K _ c h
    exact ((GhostFIFO.reachable_InvG h).2.2.2.1).symm

/-- Closed witness for `c4_used_eq_weight_sum` at concrete reachable states,
including a state holding a tombstoned entry (key 1 removed but still
weighing 2). -/
theorem c4_used_eq_weight_sum_witness :
    ((⟨[(1, { value := 1, weight := 2, freq := 0, removed := true })], [1], 2, 10⟩ :
        FIFO Nat Nat).used_capacity =
      FIFO.sumW (⟨[(1, { value := 1, weight := 2, freq := 0, removed := true })],
        [1], 2, 10⟩ : FIFO Nat Nat)) ∧
    ((FIFOReinsertion.new 7 : FIFOReinsertion Nat Nat).used_capacity =
      FIFOReinsertion.sumW (FIFOReinsertion.new 7 : FIFOReinsertion Nat Nat)) ∧
    ((GhostFIFO.new 7 : GhostFIFO Nat).used_capacity =
      GhostFIFO.sumW (GhostFIFO.new 7 : GhostFIFO Nat)) :=
  ⟨c4_used_eq_weight_sum.1 Nat Nat _
    (@FIFO.Reachable.remove Nat Nat _
      (⟨[(1, { value := 1, weight := 2, freq := 0, removed := false })], [1], 2, 10⟩ :
        FIFO Nat Nat) 1
      (FIFO.Reachable.put (FIFO.Reachable.new 10)
        (show (FIFO.new 10 : FIFO Nat Nat).put 1 1 2 = some (Except.ok none,
          ⟨[(1, { value := 1, weight := 2, freq := 0, removed := false })], [1], 2, 10⟩)
         from rfl))),
   c4_used_eq_weight_sum.2.1 Nat Nat _ (FIFOReinsertion.Reachable.new 7),
   c4_used_eq_weight_sum.2.2 Nat _ (GhostFIFO.Reachable.new 7)⟩

/-- Counterexample to claim C10: the state `c10_cex` satisfies every
invariant the claim lists — each key of the ordered sequence has a map entry
(vacuously), `used` equals the sum of stored weights, each stored weight is
at most the capacity — and the requested weight 1 is at most the capacity,
yet `free(1, none)` pops the empty deque: the loop hits its partial
front-pop (`none` in the model) instead of terminating normally.  The listed
invariants miss the converse direction: a map key that is not in the
sequence. -/
theorem c10_counterexample :
    (∀ k ∈ c10_cex.vec_deque, (lookupA k c10_cex.hash).isSome = true) ∧
    c10_cex.used_capacity = FIFO.sumW c10_cex ∧
    (∀ p ∈ c10_cex.hash, p.2.weight ≤ c10_cex.capacity) ∧
    1 ≤ c10_cex.capacity ∧
    FIFO.free c10_cex 1 none = none := by
  refine ⟨by decide, by decide, by decide, by decide, by decide⟩

/-- Claim C10 as amended: the eviction loop of each of the three queues
terminates without hitting its partial operations (the front pop never finds
the sequence empty, the map lookup of a popped key never fails), provided the
full structural invariant holds — including that every map key appears in
the ordered sequence (both `FreeInv` directions) — and the weight
accounting matches the call site: for `ignore = none` (the `insert` call)
`used` is the weight sum and `w ≤ capacity`; for `ignore = some k` (the
growing `update` call, which repeatedly rotates `k` to the tail) the entry
of `k` is live with `used + w` equal to the weight sum, `w` at most `k`'s
stored weight and that weight at most the capacity. -/
theorem c10_free_terminates :
    (∀ (K V : Type) [DecidableEq K] (c : FIFO K V) (w : Nat) (ig : Option K),
      FIFO.FreeInv c ig w → ∃ r c₂, c.free w ig = some (r, c₂)) ∧
    (∀ (K V : Type) [DecidableEq K] (c : FIFOReinsertion K V) (w : Nat) (ig : Option K),
      FIFOReinsertion.FreeInv c ig w → ∃ r c₂, c.free w ig = some (r, c₂)) ∧
    (∀ (K : Type) [DecidableEq K] (c : GhostFIFO K) (w : Nat) (ig : Option K),
      GhostFIFO.FreeInv c ig w → ∃ r c₂, c.free w ig = some (r, c₂)) := by
  refine ⟨?_, ?_, ?_⟩
  · intro K V _ c w ig hInv
    rcases FIFO.free_specF hInv with ⟨r, c₂, heq, _⟩
    exact ⟨r, c₂, heq⟩
  · intro K V _ c w ig hInv
    rcases FIFOReinsertion.free_specR hInv with ⟨r, c₂, heq, _⟩
    exact ⟨r, c₂, heq⟩
  · intro K _ c w ig hInv
    rcases GhostFIFO.free_specG hInv with ⟨r, c₂, heq, _⟩
    exact ⟨r, c₂, heq⟩

/-- Closed witness for `c10_free_terminates`: on a queue holding one live
entry of weight 2 under capacity 3, `free(2, none)` must evict it and
returns successfully; similarly for the other queues. -/
theorem c10_free_terminates_witness :
    (∃ r c₂, (⟨[(1, { value := 5, weight := 2, freq := 0, removed := false })],
       [1], 2, 3⟩ : FIFO Nat Nat).free 2 none = some (r, c₂)) ∧
    (∃ r c₂, (⟨[(1, { value := 5, weight := 2, hit := false, removed := false })],
       [1], 2, 3⟩ : FIFOReinsertion Nat Nat).free 2 none = some (r, c₂)) ∧
    (∃ r c₂, (⟨[(1, { weight := 2, removed := false })],
       [1], 2, 3⟩ : GhostFIFO Nat).free 2 none = some (r, c₂)) := by
  refine ⟨?_, ?_, ?_⟩
  · exact c10_free_terminates.1 Nat Nat _ 2 none
      ⟨by decide, by decide, fun k => by constructor <;> (intro h; simpa [keysA] using h),
       Or.inl ⟨rfl, by decide, by decide⟩⟩
  · exact c10_free_terminates.2.1 Nat Nat _ 2 none
      ⟨by decide, by decide, fun k => by constructor <;> (intro h; simpa [keysA] using h),
       Or.inl ⟨rfl, by decide, by decide⟩⟩
  · exact c10_free_terminates.2.2 Nat _ 2 none
      ⟨by decide, by decide, fun k => by constructor <;> (intro h; simpa [keysA] using h),
       Or.inl ⟨rfl, by decide, by decide⟩⟩
